import Mathlib

/-! The bootstrap, heap exchange, progress and ordering core of osss-ucx.

A shallow embedding of `src/shmemi/pmix-client.c`, `src/asr.c`,
`src/progress.c`, `src/get.c` and `src/fence.c`, followed by the theorems
that check the claims of the specification against that embedding.

Conventions.
* C `int` values are `Int`; loop counters that run `0 .. n-1` are drawn from
  `List.range n.toNat` and cast back to `Int` where the source uses them.
* C strings are `List Char` (without the terminating NUL).
* `size_t` arithmetic is taken modulo `2^64`.
* A function that can hit a failed `assert` returns an `Option`/outcome whose
  failure value stands for the process abort.
-/

namespace OsssUcx

/-- The values of a 32-bit C `int`. -/
def int_range (x : Int) : Prop := -2147483648 ≤ x ∧ x ≤ 2147483647

/-! ## printf-style formatting of the heap keys -/

/-- Decimal digits of a natural number, most significant first, as `%d`
prints the magnitude of an `int`. -/
def fmt_nat (n : Nat) : List Char :=
  if n < 10 then [Nat.digitChar n] else fmt_nat (n / 10) ++ [Nat.digitChar (n % 10)]
decreasing_by omega

/-- The conversion `%d` of printf: an optional minus sign, then the digits. -/
def fmt_d (x : Int) : List Char :=
  if x < 0 then '-' :: fmt_nat x.natAbs else fmt_nat x.natAbs

/-- The format `"%d:heapx:%d:base"` applied to `(pe, heap-index)`. -/
def base_fmt (pe i : Int) : List Char :=
  fmt_d pe ++ [':', 'h', 'e', 'a', 'p', 'x', ':'] ++ fmt_d i ++ [':', 'b', 'a', 's', 'e']

/-- The format `"%d:heapx:%d:size"` applied to `(pe, heap-index)`. -/
def size_fmt (pe i : Int) : List Char :=
  fmt_d pe ++ [':', 'h', 'e', 'a', 'p', 'x', ':'] ++ fmt_d i ++ [':', 's', 'i', 'z', 'e']

/-- Key length bound of PMIx (`pmix_common.h`). -/
def PMIX_MAX_KEYLEN : Nat := 511

/-- The string `snprintf(buf, size, ...)` leaves in `buf`: the formatted
text cut to at most `size - 1` characters. -/
def snprintf (size : Nat) (formatted : List Char) : List Char :=
  formatted.take (size - 1)

/-! ## The rendezvous service as a key/value map -/

/-- Type tags of the PMIx values used by the heap exchange. -/
inductive pmix_data_type where
  | PMIX_UINT64
  | PMIX_SIZE
  deriving DecidableEq, Repr

/-- A `pmix_value_t`: a type tag and a 64-bit payload (the union members
`data.uint64` and `data.size` share the same storage). -/
structure pmix_value where
  type : pmix_data_type
  data : Nat
  deriving DecidableEq, Repr

/-- A `pmix_info_t` as used here: key and value. -/
structure pmix_info where
  key : List Char
  value : pmix_value
  deriving DecidableEq, Repr

/-- The published data of the rendezvous service: a map from key to value. -/
abbrev PmixStore := List Char → Option pmix_value

/-- The store before anything was published. -/
def PmixStore.empty : PmixStore := fun _ => none

/-- The call `PMIx_Publish(info, ninfo)`: every (key, value) of `info` becomes
visible under its key. -/
def PMIx_Publish (info : List pmix_info) (s : PmixStore) : PmixStore :=
  info.foldl (fun st kv => fun k => if k = kv.key then some kv.value else st k) s

/-- The call `PMIx_Lookup(&pdata, 1, &waiter, 1)` once every publisher is done: the
value under the key, `none` when the lookup cannot be satisfied. -/
def PMIx_Lookup (key : List Char) (s : PmixStore) : Option pmix_value :=
  s key

/-! ## The heap table -/

/-- One entry `heapx[i][pe]`: base address and size of a symmetric heap. -/
structure HeapDescriptor where
  base : Nat
  size : Nat
  deriving DecidableEq, Repr

/-- Modelled from the spec: the table `heapx` (declared in `shmemi.h`, which
is not part of the sources at hand) as the spec's HeapTable, a mapping from
(heap index, rank) to a descriptor in which an entry is `none` until it
becomes valid. -/
abbrev HeapTable := Int → Int → Option HeapDescriptor

/-- Modelled from the spec: `shmemi_heapx_set_pe(i, pe, base, size)` (defined
outside the sources at hand) records the fetched descriptor, which makes the
entry for `(i, pe)` valid. -/
def shmemi_heapx_set_pe (i pe : Int) (base size : Nat) (heapx : HeapTable) : HeapTable :=
  fun i2 pe2 => if i2 = i ∧ pe2 = pe then some ⟨base, size⟩ else heapx i2 pe2

/-! ## `src/shmemi/pmix-client.c`: heap publication and exchange -/

/-- The process-wide state `p` of `pmix-client.c`. -/
structure shmemi_state where
  running : Bool
  me : Int
  npes : Int
  npeers : Int
  peers : Option (List Char)
  deriving DecidableEq, Repr

/-- Body of the `for (i = 0; i < nheaps; i += 1)` loop of
`publish_heap_info`, over the remaining values of `i`.  Reading a local
entry that is not valid is undefined and yields `none`. -/
def publish_heap_info_loop (p : shmemi_state) (heapx : HeapTable) :
    List Nat → PmixStore → Option PmixStore
  | [], s => some s
  | i :: rest, s =>
    match heapx (i : Int) p.me with
    | none => none
    | some d =>
      let ia0 : pmix_info :=
        ⟨snprintf PMIX_MAX_KEYLEN (base_fmt p.me i), ⟨pmix_data_type.PMIX_UINT64, d.base⟩⟩
      let ia1 : pmix_info :=
        ⟨snprintf PMIX_MAX_KEYLEN (size_fmt p.me i), ⟨pmix_data_type.PMIX_SIZE, d.size⟩⟩
      publish_heap_info_loop p heapx rest (PMIx_Publish [ia0, ia1] s)

/-- Function `publish_heap_info`: this rank publishes base and size of each of its
heaps. -/
def publish_heap_info (nheaps : Int) (p : shmemi_state) (heapx : HeapTable)
    (s : PmixStore) : Option PmixStore :=
  publish_heap_info_loop p heapx (List.range nheaps.toNat) s

/-- Inner loop `for (pn = 0; pn < p.npes; pn += 1)` of the fetch phase of
`exchange_heap_info` for heap `i`, over the remaining values of `pn`.  A
lookup that is not satisfied fails the `assert` (`none`). -/
def exchange_heap_info_pe_loop (p : shmemi_state) (s : PmixStore) (i : Int) :
    List Nat → HeapTable → Option HeapTable
  | [], heapx => some heapx
  | pn :: rest, heapx =>
    if (pn : Int) ≠ p.me then
      match PMIx_Lookup (snprintf PMIX_MAX_KEYLEN (base_fmt pn i)) s with
      | none => none
      | some fetch_base =>
        match PMIx_Lookup (snprintf PMIX_MAX_KEYLEN (size_fmt pn i)) s with
        | none => none
        | some fetch_size =>
          exchange_heap_info_pe_loop p s i rest
            (shmemi_heapx_set_pe i pn fetch_base.data fetch_size.data heapx)
    else
      exchange_heap_info_pe_loop p s i rest heapx

/-- Outer loop `for (i = 0; i < nheaps; i += 1)` of the fetch phase. -/
def exchange_heap_info_loop (p : shmemi_state) (s : PmixStore) :
    List Nat → HeapTable → Option HeapTable
  | [], heapx => some heapx
  | i :: rest, heapx =>
    match exchange_heap_info_pe_loop p s (i : Int) (List.range p.npes.toNat) heapx with
    | none => none
    | some heapx2 => exchange_heap_info_loop p s rest heapx2

/-- Function `exchange_heap_info`: fetch base and size of every heap of every other
rank and record them in the table (the trailing loop only logs). -/
def exchange_heap_info (nheaps : Int) (p : shmemi_state) (s : PmixStore)
    (heapx : HeapTable) : Option HeapTable :=
  exchange_heap_info_loop p s (List.range nheaps.toNat) heapx

/-- Function `shmemi_setup_heaps_pmix`: publish, then exchange.  The result is the
store after this rank's publication and this rank's table. -/
def shmemi_setup_heaps_pmix (nheaps : Int) (p : shmemi_state) (heapx : HeapTable)
    (s : PmixStore) : Option (PmixStore × HeapTable) :=
  match publish_heap_info nheaps p heapx s with
  | none => none
  | some s2 =>
    match exchange_heap_info nheaps p s2 heapx with
    | none => none
    | some heapx2 => some (s2, heapx2)

/-- The publish phase of the whole job: the ranks listed in `order` run
`publish_heap_info` one after the other, rank `r` with its state `P r` and
its table `T r`. -/
def publish_by_ranks (nheaps : Int) (P : Int → shmemi_state) (T : Int → HeapTable) :
    List Int → PmixStore → Option PmixStore
  | [], s => some s
  | r :: rest, s =>
    match publish_heap_info nheaps (P r) (T r) s with
    | none => none
    | some s2 => publish_by_ranks nheaps P T rest s2

/-! ## `src/shmemi/pmix-client.c`: initialisation and finalisation -/

/-- The status `PMIX_SUCCESS` (`pmix_common.h`). -/
def PMIX_SUCCESS : Int := 0

/-- The attribute keys that `shmemi_init_pmix` asks the service for. -/
inductive pmix_key where
  | PMIX_RANK
  | PMIX_JOB_SIZE
  | PMIX_LOCAL_SIZE
  | PMIX_LOCAL_PEERS
  deriving DecidableEq, Repr

/-- Log categories used by the sources. -/
inductive log_category where
  | LOG_INIT
  | LOG_FINALIZE
  | LOG_HEAP
  | LOG_FENCE
  deriving DecidableEq, Repr

/-- The calls `pmix-client.c` makes into its collaborators (rendezvous
service, heap registry, log channel), as they appear in the trace of a
process. -/
inductive Effect where
  | PMIx_Init
  | PMIx_Get (key : pmix_key)
  | PMIx_Fence
  | PMIx_Finalize (embed_barrier : Bool)
  | shmemi_heapx_finalize
  | logger (category : log_category) (text : String)
  deriving DecidableEq, Repr

/-- A process as seen by `pmix-client.c`: the state `p` and the calls made
so far, oldest first. -/
structure Runtime where
  p : shmemi_state
  trace : List Effect
  deriving DecidableEq, Repr

/-- Record one call in the trace. -/
def Runtime.emit (rt : Runtime) (e : Effect) : Runtime :=
  { rt with trace := rt.trace ++ [e] }

/-- The assignment `p.me = v`. -/
def Runtime.set_me (rt : Runtime) (v : Int) : Runtime :=
  { rt with p := { rt.p with me := v } }

/-- The assignment `p.npes = v`. -/
def Runtime.set_npes (rt : Runtime) (v : Int) : Runtime :=
  { rt with p := { rt.p with npes := v } }

/-- The assignment `p.npeers = v`. -/
def Runtime.set_npeers (rt : Runtime) (v : Int) : Runtime :=
  { rt with p := { rt.p with npeers := v } }

/-- The assignment `p.peers = v`. -/
def Runtime.set_peers (rt : Runtime) (v : Option (List Char)) : Runtime :=
  { rt with p := { rt.p with peers := v } }

/-- The assignment `p.running = v`. -/
def Runtime.set_running (rt : Runtime) (v : Bool) : Runtime :=
  { rt with p := { rt.p with running := v } }

/-- How a function that contains `assert`s ends: it returns, or a failed
assertion aborts the process; either way with the state reached. -/
inductive Outcome (σ : Type) where
  | returned (st : σ)
  | aborted (st : σ)
  deriving DecidableEq, Repr

/-- Run `next` after a call that ended in `o`: only a call that returned is
followed by another one. -/
def Outcome.andThen {σ : Type} (o : Outcome σ) (next : σ → Outcome σ) : Outcome σ :=
  match o with
  | Outcome.returned st => next st
  | Outcome.aborted st => Outcome.aborted st

/-- Number of calls of `PMIx_Finalize` in a trace. -/
def finalize_calls (t : List Effect) : Nat :=
  t.countP (fun e => match e with
    | Effect.PMIx_Finalize _ => true
    | _ => false)

/-- The barrier flags (`PMIX_EMBED_BARRIER`) handed to `PMIx_Finalize` by
the calls in a trace, oldest first. -/
def finalize_flags : List Effect → List Bool
  | [] => []
  | Effect.PMIx_Finalize embed_barrier :: rest => embed_barrier :: finalize_flags rest
  | _ :: rest => finalize_flags rest

/-- Number of calls of `shmemi_heapx_finalize` in a trace. -/
def heap_releases (t : List Effect) : Nat :=
  t.count Effect.shmemi_heapx_finalize

/-- Function `shmemi_finalize_handler_pmix(need_barrier)`; `ps` is the status that
`PMIx_Finalize` returns if it is called. -/
def shmemi_finalize_handler_pmix (ps : Int) (need_barrier : Bool) (rt : Runtime) : Outcome Runtime :=
  if rt.p.running then
    let rt1 :=
      if need_barrier then
        rt.emit (Effect.logger log_category.LOG_FINALIZE "still alive, add barrier to finalize")
      else rt
    let rt2 := rt1.emit (Effect.PMIx_Finalize need_barrier)
    if ps = PMIX_SUCCESS then
      let rt3 := rt2.emit Effect.shmemi_heapx_finalize
      let rt4 := rt3.set_running false
      Outcome.returned (rt4.emit (Effect.logger log_category.LOG_FINALIZE "shut down complete"))
    else
      Outcome.aborted rt2
  else
    Outcome.returned rt

/-- Function `shmemi_finalize_atexit_pmix`: the handler, with a barrier if the
runtime is still running. -/
def shmemi_finalize_atexit_pmix (ps : Int) (rt : Runtime) : Outcome Runtime :=
  shmemi_finalize_handler_pmix ps rt.p.running rt

/-- Function `shmemi_finalize_pmix`: the handler without a barrier. -/
def shmemi_finalize_pmix (ps : Int) (rt : Runtime) : Outcome Runtime :=
  shmemi_finalize_handler_pmix ps false rt

/-- Function `barrier_all_pmix`: `PMIx_Fence(NULL, 0, NULL, 0)`, its status ignored. -/
def barrier_all_pmix (rt : Runtime) : Runtime :=
  rt.emit Effect.PMIx_Fence

/-- The conversion `(int) u` of a 32-bit unsigned value. -/
def uint32_to_int (u : Nat) : Int :=
  if u % 4294967296 < 2147483648 then ((u % 4294967296 : Nat) : Int)
  else ((u % 4294967296 : Nat) : Int) - 4294967296

/-- What the rendezvous service answers to the calls of `shmemi_init_pmix`:
the status of each call, the unsigned 32-bit values of rank, job size and
local size, and the copy `strdup` makes of the local-peers string (`none`
for `NULL`). -/
structure pmix_reply where
  init_status : Int
  rank_status : Int
  rank : Nat
  job_size_status : Int
  job_size : Nat
  local_size_status : Int
  local_size : Nat
  local_peers_status : Int
  local_peers : Option (List Char)
  deriving DecidableEq, Repr

/-- Function `shmemi_init_pmix`, against the replies `r` of the rendezvous service.
Each `assert` that fails ends the function with `Outcome.aborted`.  The log
line is recorded by its format, without its arguments. -/
def shmemi_init_pmix (r : pmix_reply) (rt : Runtime) : Outcome Runtime :=
  let rt := rt.emit Effect.PMIx_Init
  if r.init_status ≠ PMIX_SUCCESS then Outcome.aborted rt else
  let rt := rt.emit (Effect.PMIx_Get pmix_key.PMIX_RANK)
  if r.rank_status ≠ PMIX_SUCCESS then Outcome.aborted rt else
  let rt := rt.set_me (uint32_to_int r.rank)
  if ¬ (rt.p.me ≥ 0) then Outcome.aborted rt else
  let rt := rt.emit (Effect.PMIx_Get pmix_key.PMIX_JOB_SIZE)
  if r.job_size_status ≠ PMIX_SUCCESS then Outcome.aborted rt else
  let rt := rt.set_npes (uint32_to_int r.job_size)
  if ¬ (rt.p.npes > 0) then Outcome.aborted rt else
  if ¬ (rt.p.me < rt.p.npes) then Outcome.aborted rt else
  let rt := rt.emit (Effect.PMIx_Get pmix_key.PMIX_LOCAL_SIZE)
  if r.local_size_status ≠ PMIX_SUCCESS then Outcome.aborted rt else
  let rt := rt.set_npeers (uint32_to_int r.local_size)
  if ¬ (rt.p.npeers ≥ 0) then Outcome.aborted rt else
  let rt := rt.emit (Effect.PMIx_Get pmix_key.PMIX_LOCAL_PEERS)
  if r.local_peers_status ≠ PMIX_SUCCESS then Outcome.aborted rt else
  let rt := rt.set_peers r.local_peers
  if rt.p.peers = none then Outcome.aborted rt else
  let rt := rt.emit
    (Effect.logger log_category.LOG_INIT "there %s %d peer%s on this node: \x22%s\x22")
  let rt := barrier_all_pmix rt
  Outcome.returned (rt.set_running true)

/-! ## `src/asr.c`: the address-space randomisation check -/

/-- The member `env` of the process-wide state `proc`. -/
structure env_t where
  progress_threads : Option (List Char)
  deriving DecidableEq, Repr

/-- The process-wide state `proc` as `asr.c` and `progress.c` use it:
`peers` is the array of the ranks on this node, `env.progress_threads` the
configuration string (`none` for `NULL`). -/
structure proc_t where
  rank : Int
  npeers : Int
  peers : List Int
  env : env_t
  progress_thread : Int
  deriving DecidableEq, Repr

/-- A warning as `test_asr_mismatch` hands it to `shmemu_warn`: host name,
the variable `RAND_VARIABLE` and the byte read. -/
structure asr_warning where
  host : List Char
  var_name : String
  value : Char
  deriving DecidableEq, Repr

/-- The name `RAND_VARIABLE`. -/
def RAND_VARIABLE : String := "randomize_va_space"

/-- Function `test_asr_mismatch`.  `fd` is what `open(RAND_FILE, O_RDONLY, 0)`
returns, `n` and `inp` what `read(fd, &inp, 1)` returns and stores, `host`
what `shmemu_gethostname()` returns.  The result lists the warnings
emitted; reading `proc.peers[0]` from an empty array is undefined (`none`). -/
def test_asr_mismatch (fd : Int) (n : Int) (inp : Char) (host : List Char) (proc : proc_t) :
    Option (List asr_warning) :=
  if fd < 0 then some []
  else if n < 1 then some []
  else if inp = '0' then some []
  else if proc.npeers > 0 then
    match proc.peers.head? with
    | none => none
    | some first =>
      if proc.rank > first then some []
      else some [⟨host, RAND_VARIABLE, inp⟩]
  else some [⟨host, RAND_VARIABLE, inp⟩]

/-! ## `src/progress.c`: the progress thread -/

/-- The function `strncasecmp` of the C library: compare at most `n`
characters without regard to case; the result is the difference of the
first pair of lower-cased characters that differ, the end of a string
counting as 0. -/
def strncasecmp : List Char → List Char → Nat → Int
  | _, _, 0 => 0
  | [], [], _ + 1 => 0
  | [], c2 :: _, _ + 1 => - (c2.toLower.toNat : Int)
  | c1 :: _, [], _ + 1 => (c1.toLower.toNat : Int)
  | c1 :: s1, c2 :: s2, n + 1 =>
    if c1.toLower = c2.toLower then strncasecmp s1 s2 n
    else (c1.toLower.toNat : Int) - (c2.toLower.toNat : Int)

/-- The loop `for (i = 0; i < nres; i += 1)` of `check_if_progress_required`
over the remaining elements of `res`: 1 as soon as an element equals the
rank, 0 (the initial `ret`) if none does. -/
def check_if_progress_required_loop (rank : Int) : List Int → Int
  | [] => 0
  | x :: rest => if x = rank then 1 else check_if_progress_required_loop rank rest

/-- Function `check_if_progress_required`.  `strdup_ok` says whether `strdup`
returns a copy (rather than `NULL`); `shmemu_parse_csv` is the CSV parser
of the utility layer, which is not part of the sources at hand: it maps the
string to its status and the array of values parsed. -/
def check_if_progress_required (strdup_ok : Bool)
    (shmemu_parse_csv : List Char → Int × List Int) (proc : proc_t) : Int :=
  match proc.env.progress_threads with
  | none => 0
  | some progress_threads =>
    if strncasecmp progress_threads ['a', 'l', 'l'] 3 = 0 then 1
    else if strdup_ok then
      let copy := progress_threads
      let s := (shmemu_parse_csv copy).1
      let res := (shmemu_parse_csv copy).2
      if s = 0 then check_if_progress_required_loop proc.rank res
      else 0
    else 0

/-- A string made of decimal digits and commas only: a comma-separated list
of ranks. -/
def is_rank_list (s : List Char) : Prop :=
  ∀ c ∈ s, c.isDigit = true ∨ c = ','

/-- Calls into the thread library. -/
inductive thread_call where
  | threadwrap_thread_create
  | threadwrap_thread_join
  deriving DecidableEq, Repr

/-- The state `progress.c` works on: `proc`, the sentinel `done`, the delay
and the calls made into the thread library so far. -/
structure progress_t where
  proc : proc_t
  done : Bool
  delay_ns : Int
  calls : List thread_call
  deriving DecidableEq, Repr

/-- Function `progress_init`; `create_status` is what `threadwrap_thread_create`
returns if it is called. -/
def progress_init (strdup_ok : Bool) (shmemu_parse_csv : List Char → Int × List Int)
    (create_status : Int) (st : progress_t) : Outcome progress_t :=
  let st : progress_t :=
    { st with proc :=
        { st.proc with
          progress_thread := check_if_progress_required strdup_ok shmemu_parse_csv st.proc } }
  if st.proc.progress_thread ≠ 0 then
    let st : progress_t := { st with calls := st.calls ++ [thread_call.threadwrap_thread_create] }
    if create_status = 0 then Outcome.returned st else Outcome.aborted st
  else Outcome.returned st

/-- Function `progress_finalize`; `join_status` is what `threadwrap_thread_join`
returns if it is called. -/
def progress_finalize (join_status : Int) (st : progress_t) : Outcome progress_t :=
  if st.proc.progress_thread ≠ 0 then
    let st : progress_t := { st with done := true }
    let st : progress_t := { st with calls := st.calls ++ [thread_call.threadwrap_thread_join] }
    if join_status = 0 then Outcome.returned st else Outcome.aborted st
  else Outcome.returned st

/-- Function `progress_set_delay`. -/
def progress_set_delay (newdelay : Int) (st : progress_t) : progress_t :=
  { st with delay_ns := newdelay }

/-! ## `src/get.c`: the get routines -/

/-- The C types the typed get routines are generated for. -/
inductive c_type where
  | float
  | double
  | long_double
  | char
  | signed_char
  | short
  | int
  | long
  | long_long
  | unsigned_char
  | unsigned_short
  | unsigned_int
  | unsigned_long
  | unsigned_long_long
  | int8_t
  | int16_t
  | int32_t
  | int64_t
  | uint8_t
  | uint16_t
  | uint32_t
  | uint64_t
  | size_t
  | ptrdiff_t
  | complex_float
  | complex_double
  deriving DecidableEq, Repr

/-- The operator `sizeof` on these types (LP64, x86-64). -/
def sizeof : c_type → Nat
  | c_type.float => 4
  | c_type.double => 8
  | c_type.long_double => 16
  | c_type.char => 1
  | c_type.signed_char => 1
  | c_type.short => 2
  | c_type.int => 4
  | c_type.long => 8
  | c_type.long_long => 8
  | c_type.unsigned_char => 1
  | c_type.unsigned_short => 2
  | c_type.unsigned_int => 4
  | c_type.unsigned_long => 8
  | c_type.unsigned_long_long => 8
  | c_type.int8_t => 1
  | c_type.int16_t => 2
  | c_type.int32_t => 4
  | c_type.int64_t => 8
  | c_type.uint8_t => 1
  | c_type.uint16_t => 2
  | c_type.uint32_t => 4
  | c_type.uint64_t => 8
  | c_type.size_t => 8
  | c_type.ptrdiff_t => 8
  | c_type.complex_float => 8
  | c_type.complex_double => 16

/-- The range of `size_t`: values are taken modulo `SIZE_MODULUS = 2^64`. -/
def SIZE_MODULUS : Nat := 18446744073709551616

/-- A context handle `shmem_ctx_t`. -/
abbrev shmem_ctx_t := Nat

/-- The arguments of one call `shmemc_ctx_get(ctx, dest, src, nbytes, pe)`
into the transport (addresses as numbers). -/
structure shmemc_ctx_get_call where
  ctx : shmem_ctx_t
  dest : Nat
  src : Nat
  nbytes : Nat
  pe : Int
  deriving DecidableEq, Repr

/-- The macro `SHMEM_CTX_TYPED_GET(_name, _type)`: the body of
`shmem_ctx_<name>_get`, as the call it makes into the transport. -/
def SHMEM_CTX_TYPED_GET (type : c_type) (ctx : shmem_ctx_t) (dest src : Nat) (nelems : Nat)
    (pe : Int) : shmemc_ctx_get_call :=
  let typed_nelems := (nelems * sizeof type) % SIZE_MODULUS
  ⟨ctx, dest, src, typed_nelems, pe⟩

/-- The macro `SHMEM_CTX_SIZED_GET(_size)`: the body of
`shmem_ctx_get<size>`, as the call it makes into the transport. -/
def SHMEM_CTX_SIZED_GET (size : Nat) (ctx : shmem_ctx_t) (dest src : Nat) (nelems : Nat)
    (pe : Int) : shmemc_ctx_get_call :=
  let sized_nelems := (nelems * size) % SIZE_MODULUS
  ⟨ctx, dest, src, sized_nelems, pe⟩

/-- Function `shmem_ctx_get8`, the expansion of `SHMEM_CTX_SIZED_GET(8)`. -/
def shmem_ctx_get8 := SHMEM_CTX_SIZED_GET 8

/-- Function `shmem_ctx_get16`, the expansion of `SHMEM_CTX_SIZED_GET(16)`. -/
def shmem_ctx_get16 := SHMEM_CTX_SIZED_GET 16

/-- Function `shmem_ctx_get32`, the expansion of `SHMEM_CTX_SIZED_GET(32)`. -/
def shmem_ctx_get32 := SHMEM_CTX_SIZED_GET 32

/-- Function `shmem_ctx_get64`, the expansion of `SHMEM_CTX_SIZED_GET(64)`. -/
def shmem_ctx_get64 := SHMEM_CTX_SIZED_GET 64

/-- Function `shmem_ctx_get128`, the expansion of `SHMEM_CTX_SIZED_GET(128)`. -/
def shmem_ctx_get128 := SHMEM_CTX_SIZED_GET 128

/-- Function `shmem_ctx_getmem`. -/
def shmem_ctx_getmem (ctx : shmem_ctx_t) (dest src : Nat) (nelems : Nat) (pe : Int) :
    shmemc_ctx_get_call :=
  ⟨ctx, dest, src, nelems, pe⟩

/-- The macro `SHMEM_CTX_TYPED_G(_name, _type)`: the body of
`shmem_ctx_<name>_g`, as the call it makes into the transport; `val` is the
address of the local variable that receives the element. -/
def SHMEM_CTX_TYPED_G (type : c_type) (val : Nat) (ctx : shmem_ctx_t) (addr : Nat) (pe : Int) :
    shmemc_ctx_get_call :=
  ⟨ctx, val, addr, sizeof type, pe⟩

/-- The byte count the specification asks of a sized get: the element count
times the size in bytes of an element of `bits` bits (in `size_t`).  This
one follows the specification, not the source; it is what
`SHMEM_CTX_SIZED_GET` is compared with. -/
def spec_sized_get_nbytes (bits : Nat) (nelems : Nat) : Nat :=
  (nelems * (bits / 8)) % SIZE_MODULUS

/-! ## `src/fence.c`: the ordering primitives -/

/-- A remote memory operation issued on a context. -/
structure rma_op where
  ctx : shmem_ctx_t
  id : Nat
  deriving DecidableEq, Repr

/-- The operations of the comms layer that `fence.c` calls, over a
transport state `T`; `outstanding` lists the operations issued and not yet
complete. -/
structure shmemc_t (T : Type) where
  shmemc_ctx_fence : shmem_ctx_t → T → T
  shmemc_ctx_fence_test : shmem_ctx_t → T → Int × T
  shmemc_context_id : shmem_ctx_t → Nat
  SHMEM_CTX_DEFAULT : shmem_ctx_t
  outstanding : T → List rma_op

/-- One line written by `logger`: category, format, the name of the calling
function and the numeric arguments. -/
structure log_line where
  category : log_category
  format : String
  func : String
  args : List Int
  deriving DecidableEq, Repr

/-- What `fence.c` acts on: the state of the transport and the log. -/
structure fence_world (T : Type) where
  transport : T
  log : List log_line

/-- Function `shmem_ctx_fence`. -/
def shmem_ctx_fence {T : Type} (c : shmemc_t T) (ctx : shmem_ctx_t) (w : fence_world T) :
    fence_world T :=
  let w : fence_world T :=
    { w with log := w.log ++ [⟨log_category.LOG_FENCE, "%s(ctx=%lu)", "shmem_ctx_fence",
        [(c.shmemc_context_id ctx : Int)]⟩] }
  { w with transport := c.shmemc_ctx_fence ctx w.transport }

/-- Function `shmem_fence`. -/
def shmem_fence {T : Type} (c : shmemc_t T) (w : fence_world T) : fence_world T :=
  let w : fence_world T :=
    { w with log := w.log ++ [⟨log_category.LOG_FENCE, "%s()", "shmem_fence", []⟩] }
  { w with transport := c.shmemc_ctx_fence c.SHMEM_CTX_DEFAULT w.transport }

/-- Function `shmemx_ctx_fence_test`: the value returned and the state left. -/
def shmemx_ctx_fence_test {T : Type} (c : shmemc_t T) (ctx : shmem_ctx_t) (w : fence_world T) :
    Int × fence_world T :=
  let s := (c.shmemc_ctx_fence_test ctx w.transport).1
  let w : fence_world T := { w with transport := (c.shmemc_ctx_fence_test ctx w.transport).2 }
  let w : fence_world T :=
    { w with log := w.log ++ [⟨log_category.LOG_FENCE, "%s(ctx=%lu) -> %d",
        "shmemx_ctx_fence_test", [(c.shmemc_context_id ctx : Int), s]⟩] }
  (s, w)

/-- Function `shmemx_fence_test`: the value returned and the state left. -/
def shmemx_fence_test {T : Type} (c : shmemc_t T) (w : fence_world T) : Int × fence_world T :=
  let s := (c.shmemc_ctx_fence_test c.SHMEM_CTX_DEFAULT w.transport).1
  let w : fence_world T :=
    { w with transport := (c.shmemc_ctx_fence_test c.SHMEM_CTX_DEFAULT w.transport).2 }
  (s, w)

/-- A mock transport: its state is the list of the operations issued and
not yet complete; a fence on a context completes every operation
outstanding on that context, a fence test reports (1 or 0) whether none is
outstanding on it and leaves the state alone. -/
def mock_transport : shmemc_t (List rma_op) where
  shmemc_ctx_fence := fun ctx ops => ops.filter (fun op => op.ctx ≠ ctx)
  shmemc_ctx_fence_test := fun ctx ops =>
    (if ops.all (fun op => op.ctx ≠ ctx) then 1 else 0, ops)
  shmemc_context_id := fun ctx => ctx
  SHMEM_CTX_DEFAULT := 0
  outstanding := fun ops => ops

/-- A job of two ranks, used to instantiate the exchange: state of rank `r`. -/
def demo_state (r : Int) : shmemi_state :=
  { running := true, me := r, npes := 2, npeers := 2, peers := some ['0', ',', '1'] }

/-- A job of two ranks with one heap each: the table of rank `r` before the
exchange holds its own heap only, at base `4096 * (r + 1)` with 64 bytes. -/
def demo_table (r : Int) : HeapTable :=
  fun i pn => if pn = r ∧ i = 0 then some ⟨4096 * (r.toNat + 1), 64⟩ else none

/-! # Theorems -/

/-! ## Formatting lemmas shared by the heap-key results -/

theorem digitChar_toNat (d : Nat) (h : d < 10) : (Nat.digitChar d).toNat = 48 + d := by
  interval_cases d <;> rfl

theorem digitChar_inj (a b : Nat) (ha : a < 10) (hb : b < 10)
    (h : Nat.digitChar a = Nat.digitChar b) : a = b := by
  have h1 := digitChar_toNat a ha
  have h2 := digitChar_toNat b hb
  rw [h] at h1
  omega

theorem digitChar_ne_colon (d : Nat) (h : d < 10) : Nat.digitChar d ≠ ':' := by
  intro hc
  have h1 := digitChar_toNat d h
  rw [hc] at h1
  have : (':' : Char).toNat = 58 := rfl
  omega

theorem digitChar_ne_minus (d : Nat) (h : d < 10) : Nat.digitChar d ≠ '-' := by
  intro hc
  have h1 := digitChar_toNat d h
  rw [hc] at h1
  have : ('-' : Char).toNat = 45 := rfl
  omega

theorem fmt_nat_mem (n : Nat) : ∀ c ∈ fmt_nat n, ∃ d, d < 10 ∧ c = Nat.digitChar d := by
  induction n using Nat.strong_induction_on with
  | _ n ih =>
    intro c hc
    rw [fmt_nat] at hc
    split at hc
    · simp at hc
      exact ⟨n, by assumption, hc⟩
    · simp at hc
      rcases hc with hc | hc
      · exact ih (n / 10) (by omega) c hc
      · exact ⟨n % 10, by omega, hc⟩

theorem fmt_nat_pos (n : Nat) : 0 < (fmt_nat n).length := by
  rw [fmt_nat]
  split <;> simp

theorem fmt_nat_length (k : Nat) : ∀ n, n < 10 ^ (k + 1) → (fmt_nat n).length ≤ k + 1 := by
  induction k with
  | zero =>
    intro n hn
    rw [fmt_nat]
    simp at hn
    simp [hn]
  | succ k ih =>
    intro n hn
    rw [fmt_nat]
    split
    · simp
    · have : n / 10 < 10 ^ (k + 1) := by
        rw [Nat.div_lt_iff_lt_mul (by norm_num)]
        rw [pow_succ] at hn
        exact hn
      have := ih (n / 10) this
      simp
      omega

theorem fmt_nat_inj : ∀ n m, fmt_nat n = fmt_nat m → n = m := by
  intro n
  induction n using Nat.strong_induction_on with
  | _ n ih =>
    intro m h
    rw [fmt_nat.eq_1 n, fmt_nat.eq_1 m] at h
    by_cases hn : n < 10 <;> by_cases hm : m < 10
    · simp [hn, hm] at h
      exact digitChar_inj n m hn hm h
    · simp only [hn, hm, if_true, if_false] at h
      have hl := congrArg List.length h
      have := fmt_nat_pos (m / 10)
      simp only [List.length_append, List.length_singleton, List.length_cons,
        List.length_nil] at hl
      omega
    · simp only [hn, hm, if_true, if_false] at h
      have hl := congrArg List.length h
      have := fmt_nat_pos (n / 10)
      simp only [List.length_append, List.length_singleton, List.length_cons,
        List.length_nil] at hl
      omega
    · simp only [hn, hm, if_true, if_false] at h
      have h2 := List.append_inj' h (by simp)
      have h3 := ih (n / 10) (by omega) (m / 10) h2.1
      have h4 := digitChar_inj (n % 10) (m % 10) (by omega) (by omega) (by simpa using h2.2)
      omega

theorem fmt_d_no_colon (x : Int) : ':' ∉ fmt_d x := by
  intro h
  have key : ':' ∉ fmt_nat x.natAbs := by
    intro h2
    obtain ⟨d, hd, hc⟩ := fmt_nat_mem _ _ h2
    exact digitChar_ne_colon d hd hc.symm
  unfold fmt_d at h
  split at h
  · simp at h
    exact key h
  · exact key h

theorem fmt_nat_head_ne_minus (n : Nat) (r : List Char) : fmt_nat n ≠ '-' :: r := by
  intro h
  have : '-' ∈ fmt_nat n := by rw [h]; simp
  obtain ⟨d, hd, hc⟩ := fmt_nat_mem _ _ this
  exact digitChar_ne_minus d hd hc.symm

theorem fmt_d_inj (x y : Int) (h : fmt_d x = fmt_d y) : x = y := by
  unfold fmt_d at h
  by_cases hx : x < 0 <;> by_cases hy : y < 0
  · simp only [hx, hy, if_true] at h
    have := fmt_nat_inj _ _ (List.cons_injective h)
    omega
  · simp only [hx, hy, if_true, if_false] at h
    exact absurd h.symm (fmt_nat_head_ne_minus _ _)
  · simp only [hx, hy, if_true, if_false] at h
    exact absurd h (fmt_nat_head_ne_minus _ _)
  · simp only [hx, hy, if_false] at h
    have := fmt_nat_inj _ _ h
    omega

theorem fmt_d_length (x : Int) (hx : int_range x) : (fmt_d x).length ≤ 11 := by
  have h1 : x.natAbs < 10 ^ (9 + 1) := by
    unfold int_range at hx
    omega
  have h2 := fmt_nat_length 9 _ h1
  unfold fmt_d
  split <;> simp <;> omega

theorem split_at_colon (xs ys r1 r2 : List Char) (hx : ':' ∉ xs) (hy : ':' ∉ ys)
    (h : xs ++ ':' :: r1 = ys ++ ':' :: r2) : xs = ys ∧ r1 = r2 := by
  induction xs generalizing ys with
  | nil =>
    cases ys with
    | nil => simpa using h
    | cons y ys =>
      simp at h
      simp at hy
      exact absurd h.1 hy.1
  | cons x xs ih =>
    cases ys with
    | nil =>
      simp at h
      simp at hx
      exact absurd h.1.symm hx.1
    | cons y ys =>
      simp at h hx hy
      obtain ⟨h1, h2⟩ := ih ys hx.2 hy.2 h.2
      exact ⟨by rw [h.1, h1], h2⟩


theorem heap_key_split (a b a2 b2 : Int) (t t2 : List Char)
    (h : fmt_d a ++ [':', 'h', 'e', 'a', 'p', 'x', ':'] ++ fmt_d b ++ ':' :: t
       = fmt_d a2 ++ [':', 'h', 'e', 'a', 'p', 'x', ':'] ++ fmt_d b2 ++ ':' :: t2) :
    a = a2 ∧ b = b2 ∧ t = t2 := by
  have h1 : fmt_d a ++ ':' :: (['h', 'e', 'a', 'p', 'x'] ++ ':' :: (fmt_d b ++ ':' :: t))
      = fmt_d a2 ++ ':' :: (['h', 'e', 'a', 'p', 'x'] ++ ':' :: (fmt_d b2 ++ ':' :: t2)) := by
    simpa using h
  obtain ⟨ha, hr⟩ := split_at_colon _ _ _ _ (fmt_d_no_colon a) (fmt_d_no_colon a2) h1
  have h2 : fmt_d b ++ ':' :: t = fmt_d b2 ++ ':' :: t2 := by simpa using hr
  obtain ⟨hb, ht⟩ := split_at_colon _ _ _ _ (fmt_d_no_colon b) (fmt_d_no_colon b2) h2
  exact ⟨fmt_d_inj _ _ ha, fmt_d_inj _ _ hb, ht⟩

theorem base_fmt_inj (a b a2 b2 : Int) (h : base_fmt a b = base_fmt a2 b2) :
    a = a2 ∧ b = b2 := by
  obtain ⟨h1, h2, _⟩ := heap_key_split a b a2 b2 _ _ h
  exact ⟨h1, h2⟩

theorem size_fmt_inj (a b a2 b2 : Int) (h : size_fmt a b = size_fmt a2 b2) :
    a = a2 ∧ b = b2 := by
  obtain ⟨h1, h2, _⟩ := heap_key_split a b a2 b2 _ _ h
  exact ⟨h1, h2⟩

theorem base_fmt_ne_size_fmt (a b a2 b2 : Int) : base_fmt a b ≠ size_fmt a2 b2 := by
  intro h
  obtain ⟨_, _, h3⟩ := heap_key_split a b a2 b2 _ _ h
  simp at h3

theorem base_fmt_length (a b : Int) (ha : int_range a) (hb : int_range b) :
    (base_fmt a b).length ≤ 34 := by
  have h1 := fmt_d_length a ha
  have h2 := fmt_d_length b hb
  simp [base_fmt]
  omega

theorem size_fmt_length (a b : Int) (ha : int_range a) (hb : int_range b) :
    (size_fmt a b).length ≤ 34 := by
  have h1 := fmt_d_length a ha
  have h2 := fmt_d_length b hb
  simp [size_fmt]
  omega

theorem snprintf_base_fmt (a b : Int) (ha : int_range a) (hb : int_range b) :
    snprintf PMIX_MAX_KEYLEN (base_fmt a b) = base_fmt a b := by
  have := base_fmt_length a b ha hb
  unfold snprintf PMIX_MAX_KEYLEN
  exact List.take_of_length_le (by omega)

theorem snprintf_size_fmt (a b : Int) (ha : int_range a) (hb : int_range b) :
    snprintf PMIX_MAX_KEYLEN (size_fmt a b) = size_fmt a b := by
  have := size_fmt_length a b ha hb
  unfold snprintf PMIX_MAX_KEYLEN
  exact List.take_of_length_le (by omega)

theorem PMIx_Publish_pair (ia0 ia1 : pmix_info) (s : PmixStore) (k : List Char) :
    PMIx_Publish [ia0, ia1] s k
      = if k = ia1.key then some ia1.value else if k = ia0.key then some ia0.value else s k := by
  simp [PMIx_Publish]

/-- What one run of the publish loop leaves in the store. -/
theorem publish_heap_info_loop_spec (p : shmemi_state) (heapx : HeapTable)
    (hme : int_range p.me) :
    ∀ (l : List Nat) (s : PmixStore),
      (∀ i ∈ l, (i : Int) ≤ 2147483647) →
      (∀ i ∈ l, (heapx (i : Int) p.me).isSome = true) →
      ∃ s2, publish_heap_info_loop p heapx l s = some s2 ∧
        (∀ i ∈ l, ∀ d, heapx (i : Int) p.me = some d →
            s2 (base_fmt p.me i) = some ⟨pmix_data_type.PMIX_UINT64, d.base⟩ ∧
            s2 (size_fmt p.me i) = some ⟨pmix_data_type.PMIX_SIZE, d.size⟩) ∧
        (∀ k, (∀ i ∈ l, k ≠ base_fmt p.me i ∧ k ≠ size_fmt p.me i) → s2 k = s k) := by
  intro l
  induction l with
  | nil =>
    intro s _ _
    exact ⟨s, rfl, by simp, by simp⟩
  | cons i0 rest ih =>
    intro s hr hv
    have hi0 : int_range (i0 : Int) := by
      have := hr i0 (by simp)
      unfold int_range
      omega
    obtain ⟨d0, hd0⟩ := Option.isSome_iff_exists.mp (hv i0 (by simp))
    obtain ⟨s2, hs2, ha, hb⟩ := ih
      (PMIx_Publish
        [⟨snprintf PMIX_MAX_KEYLEN (base_fmt p.me i0), ⟨pmix_data_type.PMIX_UINT64, d0.base⟩⟩,
         ⟨snprintf PMIX_MAX_KEYLEN (size_fmt p.me i0), ⟨pmix_data_type.PMIX_SIZE, d0.size⟩⟩] s)
      (fun i hi => hr i (by simp [hi])) (fun i hi => hv i (by simp [hi]))
    refine ⟨s2, ?_, ?_, ?_⟩
    · simp only [publish_heap_info_loop, hd0]
      exact hs2
    · intro i hi d hd
      by_cases hir : i ∈ rest
      · exact ha i hir d hd
      · have hii : i = i0 := by
          rcases List.mem_cons.mp hi with h | h
          · exact h
          · exact absurd h hir
        subst hii
        have hdd : d0 = d := by rw [hd0] at hd; exact Option.some.inj hd
        subst hdd
        have hne : ∀ j ∈ rest, (j : Int) ≠ (i : Int) := by
          intro j hj hji
          have : j = i := by exact_mod_cast hji
          exact hir (this ▸ hj)
        constructor
        · rw [hb _ (fun j hj => ⟨fun h => hne j hj (base_fmt_inj _ _ _ _ h).2.symm,
            base_fmt_ne_size_fmt _ _ _ _⟩)]
          rw [PMIx_Publish_pair]
          simp only [snprintf_base_fmt _ _ hme hi0, snprintf_size_fmt _ _ hme hi0]
          simp [base_fmt_ne_size_fmt]
        · rw [hb _ (fun j hj => ⟨fun h => base_fmt_ne_size_fmt _ _ _ _ h.symm,
            fun h => hne j hj (size_fmt_inj _ _ _ _ h).2.symm⟩)]
          rw [PMIx_Publish_pair]
          simp only [snprintf_base_fmt _ _ hme hi0, snprintf_size_fmt _ _ hme hi0]
          simp
    · intro k hk
      rw [hb k (fun j hj => hk j (by simp [hj]))]
      rw [PMIx_Publish_pair]
      simp only [snprintf_base_fmt _ _ hme hi0, snprintf_size_fmt _ _ hme hi0]
      have := hk i0 (by simp)
      simp [this.1, this.2]


/-- What the publish phase of the listed ranks leaves in the store. -/
theorem publish_by_ranks_spec (H : Nat) (hH : H ≤ 2147483647) (P : Int → shmemi_state)
    (T : Int → HeapTable) :
    ∀ (order : List Int) (s : PmixStore),
      (∀ r ∈ order, (P r).me = r ∧ int_range r) →
      (∀ r ∈ order, ∀ i : Nat, i < H → (T r (i : Int) r).isSome = true) →
      ∃ s2, publish_by_ranks (H : Int) P T order s = some s2 ∧
        (∀ r ∈ order, ∀ i : Nat, i < H → ∀ d, T r (i : Int) r = some d →
            s2 (base_fmt r i) = some ⟨pmix_data_type.PMIX_UINT64, d.base⟩ ∧
            s2 (size_fmt r i) = some ⟨pmix_data_type.PMIX_SIZE, d.size⟩) ∧
        (∀ k, (∀ r ∈ order, ∀ i : Nat, i < H → k ≠ base_fmt r i ∧ k ≠ size_fmt r i) →
            s2 k = s k) := by
  intro order
  induction order with
  | nil =>
    intro s _ _
    exact ⟨s, rfl, by simp, by simp⟩
  | cons r0 rest ih =>
    intro s hP hv
    obtain ⟨hme, hr0⟩ := hP r0 (by simp)
    have hme2 : int_range (P r0).me := by rw [hme]; exact hr0
    obtain ⟨s1, hs1, ha1, hb1⟩ := publish_heap_info_loop_spec (P r0) (T r0) hme2
      (List.range H) s
      (fun i hi => by have := List.mem_range.mp hi; omega)
      (fun i hi => by rw [hme]; exact hv r0 (by simp) i (List.mem_range.mp hi))
    obtain ⟨s2, hs2, ha2, hb2⟩ := ih s1 (fun r hr => hP r (by simp [hr]))
      (fun r hr => hv r (by simp [hr]))
    rw [hme] at ha1 hb1
    refine ⟨s2, ?_, ?_, ?_⟩
    · simp only [publish_by_ranks, publish_heap_info, Int.toNat_ofNat, hs1]
      exact hs2
    · intro r hr i hi d hd
      by_cases hrr : r ∈ rest
      · exact ha2 r hrr i hi d hd
      · have hrr0 : r = r0 := by
          rcases List.mem_cons.mp hr with h | h
          · exact h
          · exact absurd h hrr
        subst hrr0
        have hne : ∀ q ∈ rest, r ≠ q := fun q hq hrq => hrr (hrq ▸ hq)
        constructor
        · rw [hb2 _ (fun q hq j _ => ⟨fun h => hne q hq (base_fmt_inj _ _ _ _ h).1,
            base_fmt_ne_size_fmt _ _ _ _⟩)]
          exact (ha1 i (List.mem_range.mpr hi) d hd).1
        · rw [hb2 _ (fun q hq j _ => ⟨fun h => base_fmt_ne_size_fmt _ _ _ _ h.symm,
            fun h => hne q hq (size_fmt_inj _ _ _ _ h).1⟩)]
          exact (ha1 i (List.mem_range.mpr hi) d hd).2
    · intro k hk
      rw [hb2 k (fun q hq j hj => hk q (by simp [hq]) j hj)]
      exact hb1 k (fun j hj => hk r0 (by simp) j (List.mem_range.mp hj))


/-- What the inner fetch loop for heap `i` leaves in the table. -/
theorem exchange_heap_info_pe_loop_spec (N H : Nat) (hN : N ≤ 2147483647)
    (hH : H ≤ 2147483647) (p : shmemi_state) (s : PmixStore) (T : Int → HeapTable)
    (hpub : ∀ pn : Nat, pn < N → ∀ i : Nat, i < H → ∃ d, T pn i pn = some d ∧
        s (base_fmt pn i) = some ⟨pmix_data_type.PMIX_UINT64, d.base⟩ ∧
        s (size_fmt pn i) = some ⟨pmix_data_type.PMIX_SIZE, d.size⟩)
    (i : Nat) (hi : i < H) :
    ∀ (l : List Nat), (∀ pn ∈ l, pn < N) → ∀ heapx : HeapTable,
      ∃ heapx2, exchange_heap_info_pe_loop p s (i : Int) l heapx = some heapx2 ∧
        ∀ i2 pn2 : Int, heapx2 i2 pn2 =
          if i2 = (i : Int) ∧ pn2 ≠ p.me ∧ pn2 ∈ l.map Nat.cast then T pn2 i pn2
          else heapx i2 pn2 := by
  intro l
  induction l with
  | nil =>
    intro _ heapx
    exact ⟨heapx, rfl, by simp⟩
  | cons pn0 rest ih =>
    intro hl heapx
    have hpn0 : pn0 < N := hl pn0 (by simp)
    have hr1 : int_range (pn0 : Int) := by unfold int_range; omega
    have hr2 : int_range (i : Int) := by unfold int_range; omega
    obtain ⟨d, hd, hsb, hss⟩ := hpub pn0 hpn0 i hi
    by_cases hme : (pn0 : Int) = p.me
    · obtain ⟨heapx2, h2, hspec⟩ := ih (fun pn h => hl pn (by simp [h])) heapx
      refine ⟨heapx2, ?_, ?_⟩
      · simp only [exchange_heap_info_pe_loop, hme, ne_eq, not_true_eq_false, if_false]
        exact h2
      · intro i2 pn2
        rw [hspec i2 pn2]
        by_cases hp : pn2 = p.me
        · simp [hp]
        · have : pn2 ≠ (pn0 : Int) := by rw [hme]; exact hp
          simp [hp, this]
    · obtain ⟨heapx2, h2, hspec⟩ := ih (fun pn h => hl pn (by simp [h]))
        (shmemi_heapx_set_pe i pn0 d.base d.size heapx)
      refine ⟨heapx2, ?_, ?_⟩
      · simp only [exchange_heap_info_pe_loop, hme, ne_eq, not_false_eq_true, if_true,
          PMIx_Lookup, snprintf_base_fmt _ _ hr1 hr2, snprintf_size_fmt _ _ hr1 hr2, hsb, hss]
        exact h2
      · intro i2 pn2
        rw [hspec i2 pn2]
        by_cases hc : i2 = (i : Int) ∧ pn2 ≠ p.me ∧ pn2 ∈ rest.map Nat.cast
        · have hc2 : i2 = (i : Int) ∧ pn2 ≠ p.me ∧ pn2 ∈ (pn0 :: rest).map Nat.cast :=
            ⟨hc.1, hc.2.1, by simp only [List.map_cons, List.mem_cons]; exact Or.inr hc.2.2⟩
          rw [if_pos hc, if_pos hc2]
        · rw [if_neg hc]
          unfold shmemi_heapx_set_pe
          by_cases hq : i2 = (i : Int) ∧ pn2 = (pn0 : Int)
          · have hc2 : i2 = (i : Int) ∧ pn2 ≠ p.me ∧ pn2 ∈ (pn0 :: rest).map Nat.cast :=
              ⟨hq.1, by rw [hq.2]; exact hme, by simp [hq.2]⟩
            rw [if_pos hq, if_pos hc2, hq.2, hd]
          · have hc2 : ¬ (i2 = (i : Int) ∧ pn2 ≠ p.me ∧ pn2 ∈ (pn0 :: rest).map Nat.cast) := by
              intro h
              simp only [List.map_cons, List.mem_cons] at h
              rcases h.2.2 with h3 | h3
              · exact hq ⟨h.1, h3⟩
              · exact hc ⟨h.1, h.2.1, h3⟩
            rw [if_neg hq, if_neg hc2]

/-- What the fetch phase leaves in the table. -/
theorem exchange_heap_info_loop_spec (N H : Nat) (hN : N ≤ 2147483647)
    (hH : H ≤ 2147483647) (p : shmemi_state) (hp : p.npes = (N : Int)) (s : PmixStore)
    (T : Int → HeapTable)
    (hpub : ∀ pn : Nat, pn < N → ∀ i : Nat, i < H → ∃ d, T pn i pn = some d ∧
        s (base_fmt pn i) = some ⟨pmix_data_type.PMIX_UINT64, d.base⟩ ∧
        s (size_fmt pn i) = some ⟨pmix_data_type.PMIX_SIZE, d.size⟩) :
    ∀ (l : List Nat), (∀ i ∈ l, i < H) → ∀ heapx : HeapTable,
      ∃ heapx2, exchange_heap_info_loop p s l heapx = some heapx2 ∧
        ∀ i2 pn2 : Int, heapx2 i2 pn2 =
          if i2 ∈ l.map Nat.cast ∧ pn2 ≠ p.me ∧ 0 ≤ pn2 ∧ pn2 < (N : Int) then T pn2 i2 pn2
          else heapx i2 pn2 := by
  intro l
  induction l with
  | nil =>
    intro _ heapx
    exact ⟨heapx, rfl, by simp⟩
  | cons i0 rest ih =>
    intro hl heapx
    obtain ⟨heapx1, h1, hspec1⟩ := exchange_heap_info_pe_loop_spec N H hN hH p s T hpub i0
      (hl i0 (by simp)) (List.range N) (fun pn h => List.mem_range.mp h) heapx
    obtain ⟨heapx2, h2, hspec2⟩ := ih (fun i h => hl i (by simp [h])) heapx1
    refine ⟨heapx2, ?_, ?_⟩
    · simp only [exchange_heap_info_loop, hp, Int.toNat_ofNat, h1]
      exact h2
    · intro i2 pn2
      rw [hspec2 i2 pn2, hspec1 i2 pn2]
      have hmem : pn2 ∈ (List.range N).map Nat.cast ↔ 0 ≤ pn2 ∧ pn2 < (N : Int) := by
        simp only [List.mem_map, List.mem_range]
        constructor
        · rintro ⟨a, ha, rfl⟩
          omega
        · intro h
          exact ⟨pn2.toNat, by omega, by omega⟩
      by_cases ha : i2 ∈ rest.map Nat.cast ∧ pn2 ≠ p.me ∧ 0 ≤ pn2 ∧ pn2 < (N : Int)
      · have hb : i2 ∈ (i0 :: rest).map Nat.cast ∧ pn2 ≠ p.me ∧ 0 ≤ pn2 ∧ pn2 < (N : Int) :=
          ⟨by simp only [List.map_cons, List.mem_cons]; exact Or.inr ha.1, ha.2⟩
        rw [if_pos ha, if_pos hb]
      · rw [if_neg ha]
        by_cases hq : i2 = (i0 : Int) ∧ pn2 ≠ p.me ∧ pn2 ∈ (List.range N).map Nat.cast
        · have hb : i2 ∈ (i0 :: rest).map Nat.cast ∧ pn2 ≠ p.me ∧ 0 ≤ pn2 ∧ pn2 < (N : Int) :=
            ⟨by simp [hq.1], hq.2.1, hmem.mp hq.2.2⟩
          rw [if_pos hq, if_pos hb, hq.1]
        · have hb : ¬ (i2 ∈ (i0 :: rest).map Nat.cast ∧ pn2 ≠ p.me ∧ 0 ≤ pn2 ∧
              pn2 < (N : Int)) := by
            intro h
            simp only [List.map_cons, List.mem_cons] at h
            rcases h.1 with h3 | h3
            · exact hq ⟨h3, h.2.1, hmem.mpr h.2.2⟩
            · exact ha ⟨h3, h.2⟩
          rw [if_neg hq, if_neg hb]


theorem publish_by_ranks_append (nheaps : Int) (P : Int → shmemi_state) (T : Int → HeapTable)
    (l1 l2 : List Int) : ∀ s : PmixStore,
      publish_by_ranks nheaps P T (l1 ++ l2) s
        = (publish_by_ranks nheaps P T l1 s).bind (publish_by_ranks nheaps P T l2) := by
  induction l1 with
  | nil => intro s; rfl
  | cons r rest ih =>
    intro s
    simp only [List.cons_append, publish_by_ranks]
    cases publish_heap_info nheaps (P r) (T r) s with
    | none => rfl
    | some s2 => exact ih s2

/-- Once every rank of the job has published, the store holds base and size
of every heap of every rank. -/
theorem store_after_publish (N H : Nat) (hN : N ≤ 2147483647) (hH : H ≤ 2147483647)
    (P : Int → shmemi_state)
    (hP : ∀ r : Int, 0 ≤ r → r < N → (P r).me = r ∧ (P r).npes = N)
    (T : Int → HeapTable)
    (hlocal : ∀ r i : Int, 0 ≤ r → r < N → 0 ≤ i → i < H → (T r i r).isSome = true)
    (order : List Int) (hall : ∀ r : Int, 0 ≤ r → r < N → r ∈ order)
    (hranks : ∀ r ∈ order, 0 ≤ r ∧ r < N) :
    ∃ s, publish_by_ranks H P T order PmixStore.empty = some s ∧
      ∀ pn : Nat, pn < N → ∀ i : Nat, i < H → ∃ d, T pn i pn = some d ∧
        s (base_fmt pn i) = some ⟨pmix_data_type.PMIX_UINT64, d.base⟩ ∧
        s (size_fmt pn i) = some ⟨pmix_data_type.PMIX_SIZE, d.size⟩ := by
  obtain ⟨s, hs, ha, _⟩ := publish_by_ranks_spec H hH P T order PmixStore.empty
    (fun r hr => by
      obtain ⟨h0, h1⟩ := hranks r hr
      exact ⟨(hP r h0 h1).1, by unfold int_range; omega⟩)
    (fun r hr i hi => by
      obtain ⟨h0, h1⟩ := hranks r hr
      exact hlocal r i h0 h1 (by omega) (by omega))
  refine ⟨s, hs, ?_⟩
  intro pn hpn i hi
  obtain ⟨d, hd⟩ := Option.isSome_iff_exists.mp
    (hlocal pn i (by omega) (by omega) (by omega) (by omega))
  exact ⟨d, hd, ha pn (hall pn (by omega) (by omega)) i hi d hd⟩

/-- The table a rank holds after the fetch phase, entry by entry. -/
theorem exchange_heap_info_spec (N H : Nat) (hN : N ≤ 2147483647) (hH : H ≤ 2147483647)
    (p : shmemi_state) (hp : p.npes = (N : Int)) (s : PmixStore) (T : Int → HeapTable)
    (hpub : ∀ pn : Nat, pn < N → ∀ i : Nat, i < H → ∃ d, T pn i pn = some d ∧
        s (base_fmt pn i) = some ⟨pmix_data_type.PMIX_UINT64, d.base⟩ ∧
        s (size_fmt pn i) = some ⟨pmix_data_type.PMIX_SIZE, d.size⟩)
    (heapx : HeapTable) :
    ∃ heapx2, exchange_heap_info H p s heapx = some heapx2 ∧
      ∀ i pn : Int, heapx2 i pn =
        if (0 ≤ i ∧ i < (H : Int)) ∧ pn ≠ p.me ∧ 0 ≤ pn ∧ pn < (N : Int) then T pn i pn
        else heapx i pn := by
  obtain ⟨heapx2, h2, hspec⟩ := exchange_heap_info_loop_spec N H hN hH p hp s T hpub
    (List.range H) (fun i h => List.mem_range.mp h) heapx
  refine ⟨heapx2, ?_, ?_⟩
  · simp only [exchange_heap_info, Int.toNat_ofNat]
    exact h2
  · intro i pn
    rw [hspec i pn]
    have hmem : i ∈ (List.range H).map Nat.cast ↔ 0 ≤ i ∧ i < (H : Int) := by
      simp only [List.mem_map, List.mem_range]
      constructor
      · rintro ⟨a, ha, rfl⟩
        omega
      · intro h
        exact ⟨i.toNat, by omega, by omega⟩
    simp only [hmem]


/-! ## C1: the heap table after publish and exchange -/

/-- C1: for a job of `N ≥ 1` ranks with `H ≥ 1` heaps each, once every rank
has run `publish_heap_info` with its own local entries (in any order), the
fetch phase `exchange_heap_info` succeeds on every rank `me`, and afterwards
the entry of every (heap index, owner) pair of the job is the descriptor
its owner published; the valid entries of the table are exactly those
`N * H` pairs; any two ranks hold the same entry for every pair; and running
the whole of `shmemi_setup_heaps_pmix` at that point yields the same
entries. -/
theorem heap_exchange_complete_and_consistent (N H : Nat) (_hN1 : 1 ≤ N) (_hH1 : 1 ≤ H)
    (hN : N ≤ 2147483647) (hH : H ≤ 2147483647)
    (P : Int → shmemi_state)
    (hP : ∀ r : Int, 0 ≤ r → r < N → (P r).me = r ∧ (P r).npes = N)
    (T : Int → HeapTable)
    (hlocal : ∀ r i : Int, 0 ≤ r → r < N → 0 ≤ i → i < H → (T r i r).isSome = true)
    (hfresh : ∀ r i pn : Int, 0 ≤ r → r < N → (T r i pn).isSome = true →
      pn = r ∧ 0 ≤ i ∧ i < H)
    (order : List Int) (hall : ∀ r : Int, 0 ≤ r → r < N → r ∈ order)
    (hranks : ∀ r ∈ order, 0 ≤ r ∧ r < N) :
    ∃ s, publish_by_ranks H P T order PmixStore.empty = some s ∧
      (∀ i pn : Int, 0 ≤ i → i < H → 0 ≤ pn → pn < N → ∃ d, T pn i pn = some d ∧
        s (snprintf PMIX_MAX_KEYLEN (base_fmt pn i))
          = some ⟨pmix_data_type.PMIX_UINT64, d.base⟩ ∧
        s (snprintf PMIX_MAX_KEYLEN (size_fmt pn i))
          = some ⟨pmix_data_type.PMIX_SIZE, d.size⟩) ∧
      (∀ me : Int, 0 ≤ me → me < N →
        ∃ heapx, exchange_heap_info H (P me) s (T me) = some heapx ∧
          (∀ i pn : Int, 0 ≤ i → i < H → 0 ≤ pn → pn < N →
            heapx i pn = T pn i pn ∧ (heapx i pn).isSome = true) ∧
          (∀ i pn : Int, (heapx i pn).isSome = true → 0 ≤ i ∧ i < H ∧ 0 ≤ pn ∧ pn < N) ∧
          ((Finset.Ico (0 : Int) H ×ˢ Finset.Ico (0 : Int) N).filter
            (fun x => (heapx x.1 x.2).isSome = true)).card = N * H ∧
          (∃ s2 heapx2, shmemi_setup_heaps_pmix H (P me) (T me) s = some (s2, heapx2) ∧
            ∀ i pn : Int, 0 ≤ i → i < H → 0 ≤ pn → pn < N → heapx2 i pn = heapx i pn)) ∧
      (∀ r1 r2 : Int, 0 ≤ r1 → r1 < N → 0 ≤ r2 → r2 < N → ∀ h1 h2 : HeapTable,
        exchange_heap_info H (P r1) s (T r1) = some h1 →
        exchange_heap_info H (P r2) s (T r2) = some h2 →
        ∀ i pn : Int, 0 ≤ i → i < H → 0 ≤ pn → pn < N → h1 i pn = h2 i pn) := by
  obtain ⟨s, hs, hpub⟩ := store_after_publish N H hN hH P hP T hlocal order hall hranks
  -- the table of rank `me` after the fetch phase over a complete store
  have table : ∀ (s1 : PmixStore),
      (∀ pn : Nat, pn < N → ∀ i : Nat, i < H → ∃ d, T pn i pn = some d ∧
        s1 (base_fmt pn i) = some ⟨pmix_data_type.PMIX_UINT64, d.base⟩ ∧
        s1 (size_fmt pn i) = some ⟨pmix_data_type.PMIX_SIZE, d.size⟩) →
      ∀ me : Int, 0 ≤ me → me < N →
      ∃ heapx, exchange_heap_info H (P me) s1 (T me) = some heapx ∧
        ∀ i pn : Int, 0 ≤ i → i < H → 0 ≤ pn → pn < N → heapx i pn = T pn i pn := by
    intro s1 hpub1 me h0 h1
    obtain ⟨heapx, hx, hspec⟩ := exchange_heap_info_spec N H hN hH (P me) (hP me h0 h1).2 s1 T
      hpub1 (T me)
    refine ⟨heapx, hx, ?_⟩
    intro i pn hi0 hi1 hp0 hp1
    rw [hspec i pn, (hP me h0 h1).1]
    by_cases hpe : pn = me
    · simp [hpe]
    · simp [hpe, hi0, hi1, hp0, hp1]
  refine ⟨s, hs, ?_, ?_, ?_⟩
  · intro i pn hi0 hi1 hp0 hp1
    obtain ⟨d, hd, hb, hz⟩ := hpub pn.toNat (by omega) i.toNat (by omega)
    have e1 : ((pn.toNat : Nat) : Int) = pn := by omega
    have e2 : ((i.toNat : Nat) : Int) = i := by omega
    rw [e1, e2] at hd hb hz
    have r1 : int_range pn := by unfold int_range; omega
    have r2 : int_range i := by unfold int_range; omega
    exact ⟨d, hd, by rw [snprintf_base_fmt _ _ r1 r2]; exact hb,
      by rw [snprintf_size_fmt _ _ r1 r2]; exact hz⟩
  · intro me h0 h1
    obtain ⟨heapx, hx, hspec⟩ := exchange_heap_info_spec N H hN hH (P me) (hP me h0 h1).2 s T
      hpub (T me)
    obtain ⟨heapx1, hx1, hin1⟩ := table s hpub me h0 h1
    have hxx : heapx1 = heapx := by rw [hx] at hx1; exact (Option.some.inj hx1).symm
    subst hxx
    have hin : ∀ i pn : Int, 0 ≤ i → i < H → 0 ≤ pn → pn < N →
        heapx1 i pn = T pn i pn ∧ (heapx1 i pn).isSome = true := by
      intro i pn hi0 hi1 hp0 hp1
      have := hin1 i pn hi0 hi1 hp0 hp1
      exact ⟨this, by rw [this]; exact hlocal pn i hp0 hp1 hi0 hi1⟩
    refine ⟨heapx1, hx, hin, ?_, ?_, ?_⟩
    · intro i pn hv
      rw [hspec i pn] at hv
      split at hv
      · rename_i hc
        exact ⟨hc.1.1, hc.1.2, hc.2.2.1, hc.2.2.2⟩
      · obtain ⟨e, hi0, hi1⟩ := hfresh me i pn h0 h1 hv
        exact ⟨hi0, hi1, by omega, by omega⟩
    · rw [Finset.filter_true_of_mem]
      · simp [Finset.card_product, Int.card_Ico, Nat.mul_comm]
      · intro x hxm
        simp only [Finset.mem_product, Finset.mem_Ico] at hxm
        exact (hin x.1 x.2 hxm.1.1 hxm.1.2 hxm.2.1 hxm.2.2).2
    · -- the whole of the setup: this rank publishes (again), then fetches
      have hcover : ∀ r : Int, 0 ≤ r → r < N → r ∈ order ++ [me] :=
        fun r a b => List.mem_append.mpr (Or.inl (hall r a b))
      have hranks2 : ∀ r ∈ order ++ [me], 0 ≤ r ∧ r < N := by
        intro r hr
        rcases List.mem_append.mp hr with h | h
        · exact hranks r h
        · simp only [List.mem_singleton] at h
          rw [h]
          exact ⟨h0, h1⟩
      obtain ⟨s2, hs2, hpub2⟩ := store_after_publish N H hN hH P hP T hlocal (order ++ [me])
        hcover hranks2
      rw [publish_by_ranks_append, hs] at hs2
      simp only [Option.some_bind, publish_by_ranks] at hs2
      have hp2 : publish_heap_info H (P me) (T me) s = some s2 := by
        cases hq : publish_heap_info H (P me) (T me) s with
        | none => rw [hq] at hs2; simp at hs2
        | some s3 => rw [hq] at hs2; simpa using hs2
      obtain ⟨heapx2, hx2, hin2⟩ := table s2 hpub2 me h0 h1
      refine ⟨s2, heapx2, ?_, ?_⟩
      · simp only [shmemi_setup_heaps_pmix, hp2, hx2]
      · intro i pn hi0 hi1 hp0 hp1
        rw [hin2 i pn hi0 hi1 hp0 hp1, (hin i pn hi0 hi1 hp0 hp1).1]
  · intro r1 r2 a1 b1 a2 b2 h1 h2 e1 e2 i pn hi0 hi1 hp0 hp1
    obtain ⟨g1, hg1, hin1⟩ := table s hpub r1 a1 b1
    obtain ⟨g2, hg2, hin2⟩ := table s hpub r2 a2 b2
    rw [e1] at hg1
    rw [e2] at hg2
    rw [Option.some.inj hg1, Option.some.inj hg2, hin1 i pn hi0 hi1 hp0 hp1,
      hin2 i pn hi0 hi1 hp0 hp1]


/-- Witness for C1: in a job of two ranks with one heap each, publishing in
the order 1, 0, both ranks end up with the descriptor rank 1 published for
its heap. -/
theorem heap_exchange_complete_and_consistent_witness :
    ∃ s heapx0 heapx1,
      publish_by_ranks (1 : Nat) demo_state demo_table [1, 0] PmixStore.empty = some s ∧
      exchange_heap_info (1 : Nat) (demo_state 0) s (demo_table 0) = some heapx0 ∧
      exchange_heap_info (1 : Nat) (demo_state 1) s (demo_table 1) = some heapx1 ∧
      heapx0 0 1 = some ⟨8192, 64⟩ ∧ heapx1 0 1 = some ⟨8192, 64⟩ ∧
      heapx0 0 0 = heapx1 0 0 := by
  obtain ⟨s, hs, _, hx, hagree⟩ := heap_exchange_complete_and_consistent 2 1 (by decide)
    (by decide) (by decide) (by decide) demo_state
    (fun r _ _ => by simp [demo_state])
    demo_table
    (fun r i _ _ hi0 hi1 => by
      have : i = 0 := by omega
      simp [demo_table, this])
    (fun r i pn _ _ h => by
      unfold demo_table at h
      split at h
      · rename_i hc
        exact ⟨hc.1, by omega, by omega⟩
      · simp at h)
    [1, 0]
    (fun r h0 h1 => by
      have : r = 0 ∨ r = 1 := by omega
      rcases this with h | h <;> simp [h])
    (fun r hr => by
      simp only [List.mem_cons, List.mem_singleton, List.not_mem_nil, or_false] at hr
      rcases hr with h | h <;> simp [h])
  obtain ⟨heapx0, e0, hin0, _⟩ := hx 0 (by decide) (by decide)
  obtain ⟨heapx1, e1, hin1, _⟩ := hx 1 (by decide) (by decide)
  refine ⟨s, heapx0, heapx1, hs, e0, e1, ?_, ?_, ?_⟩
  · rw [(hin0 0 1 (by decide) (by decide) (by decide) (by decide)).1]
    simp [demo_table]
  · rw [(hin1 0 1 (by decide) (by decide) (by decide) (by decide)).1]
    simp [demo_table]
  · exact hagree 0 1 (by decide) (by decide) (by decide) (by decide) heapx0 heapx1 e0 e1 0 0
      (by decide) (by decide) (by decide) (by decide)


/-! ## C2: finalisation is idempotent -/

theorem finalize_calls_append (a b : List Effect) :
    finalize_calls (a ++ b) = finalize_calls a + finalize_calls b := by
  simp [finalize_calls, List.countP_append]

theorem heap_releases_append (a b : List Effect) :
    heap_releases (a ++ b) = heap_releases a + heap_releases b := by
  simp [heap_releases, List.count_append]

/-- C2: `shmemi_finalize_handler_pmix` is idempotent.  Called with
`running == false` it returns the state unchanged, for every `need_barrier`
and every state: no `PMIx_Finalize`, no heap release, not even a log line.
Hence a second call right after a first one changes nothing, and two calls
in a row from `running == true` (the first `PMIx_Finalize` succeeding) call
`PMIx_Finalize` and `shmemi_heapx_finalize` exactly once in total and leave
`running == false`; the same holds for the explicit entry point followed by
the at-exit one. -/
theorem finalize_idempotent :
    (∀ (ps : Int) (need_barrier : Bool) (rt : Runtime), rt.p.running = false →
      shmemi_finalize_handler_pmix ps need_barrier rt = Outcome.returned rt) ∧
    (∀ (ps1 ps2 : Int) (nb1 nb2 : Bool) (rt : Runtime),
      (shmemi_finalize_handler_pmix ps1 nb1 rt).andThen (shmemi_finalize_handler_pmix ps2 nb2)
        = shmemi_finalize_handler_pmix ps1 nb1 rt) ∧
    (∀ (ps2 : Int) (nb1 nb2 : Bool) (rt : Runtime), rt.p.running = true →
      ∃ rt2, (shmemi_finalize_handler_pmix PMIX_SUCCESS nb1 rt).andThen
          (shmemi_finalize_handler_pmix ps2 nb2) = Outcome.returned rt2 ∧
        rt2.p.running = false ∧
        finalize_calls rt2.trace = finalize_calls rt.trace + 1 ∧
        heap_releases rt2.trace = heap_releases rt.trace + 1) ∧
    (∀ (ps2 : Int) (rt : Runtime), rt.p.running = true →
      ∃ rt2, (shmemi_finalize_pmix PMIX_SUCCESS rt).andThen (shmemi_finalize_atexit_pmix ps2)
          = Outcome.returned rt2 ∧
        rt2.p.running = false ∧
        finalize_calls rt2.trace = finalize_calls rt.trace + 1 ∧
        heap_releases rt2.trace = heap_releases rt.trace + 1) := by
  have noop : ∀ (ps : Int) (need_barrier : Bool) (rt : Runtime), rt.p.running = false →
      shmemi_finalize_handler_pmix ps need_barrier rt = Outcome.returned rt := by
    intro ps nb rt h
    simp [shmemi_finalize_handler_pmix, h]
  have shape : ∀ (ps : Int) (nb : Bool) (rt : Runtime),
      (∃ rt2, shmemi_finalize_handler_pmix ps nb rt = Outcome.returned rt2 ∧
        rt2.p.running = false) ∨
      (∃ rt2, shmemi_finalize_handler_pmix ps nb rt = Outcome.aborted rt2) := by
    intro ps nb rt
    by_cases hr : rt.p.running = true
    · by_cases hs : ps = PMIX_SUCCESS
      · left
        simp only [shmemi_finalize_handler_pmix, hr, hs, if_true]
        exact ⟨_, rfl, rfl⟩
      · right
        simp only [shmemi_finalize_handler_pmix, hr, hs, if_true, if_false]
        exact ⟨_, rfl⟩
    · have hr2 : rt.p.running = false := by simpa using hr
      exact Or.inl ⟨rt, noop ps nb rt hr2, hr2⟩
  have twiceF : ∀ (ps1 ps2 : Int) (nb1 : Bool) (nbf : Runtime → Bool) (rt : Runtime),
      (shmemi_finalize_handler_pmix ps1 nb1 rt).andThen
          (fun r => shmemi_finalize_handler_pmix ps2 (nbf r) r)
        = shmemi_finalize_handler_pmix ps1 nb1 rt := by
    intro ps1 ps2 nb1 nbf rt
    rcases shape ps1 nb1 rt with ⟨rt2, h, hr⟩ | ⟨rt2, h⟩
    · rw [h]
      simp only [Outcome.andThen]
      exact noop ps2 (nbf rt2) rt2 hr
    · rw [h]
      rfl
  have twice : ∀ (ps1 ps2 : Int) (nb1 nb2 : Bool) (rt : Runtime),
      (shmemi_finalize_handler_pmix ps1 nb1 rt).andThen (shmemi_finalize_handler_pmix ps2 nb2)
        = shmemi_finalize_handler_pmix ps1 nb1 rt :=
    fun ps1 ps2 nb1 nb2 rt => twiceF ps1 ps2 nb1 (fun _ => nb2) rt
  have once : ∀ (ps2 : Int) (nb1 nb2 : Bool) (rt : Runtime), rt.p.running = true →
      ∃ rt2, (shmemi_finalize_handler_pmix PMIX_SUCCESS nb1 rt).andThen
          (shmemi_finalize_handler_pmix ps2 nb2) = Outcome.returned rt2 ∧
        rt2.p.running = false ∧
        finalize_calls rt2.trace = finalize_calls rt.trace + 1 ∧
        heap_releases rt2.trace = heap_releases rt.trace + 1 := by
    intro ps2 nb1 nb2 rt hr
    rw [twice]
    cases nb1
    · refine ⟨_, by simp only [shmemi_finalize_handler_pmix, hr, if_true]; rfl, rfl, ?_, ?_⟩
      · simp [Runtime.emit, Runtime.set_running, finalize_calls_append, finalize_calls]
      · simp [Runtime.emit, Runtime.set_running, heap_releases_append, heap_releases]
    · refine ⟨_, by simp only [shmemi_finalize_handler_pmix, hr, if_true]; rfl, rfl, ?_, ?_⟩
      · simp [Runtime.emit, Runtime.set_running, finalize_calls_append, finalize_calls]
      · simp [Runtime.emit, Runtime.set_running, heap_releases_append, heap_releases]
  refine ⟨noop, twice, once, ?_⟩
  intro ps2 rt hr
  obtain ⟨rt2, h1, h2⟩ := once ps2 false true rt hr
  refine ⟨rt2, ?_, h2⟩
  rw [← h1, twice]
  exact twiceF PMIX_SUCCESS ps2 false (fun r => r.p.running) rt

/-- Witness for C2: a running process finalised explicitly and then again
at exit. -/
theorem finalize_idempotent_witness :
    shmemi_finalize_handler_pmix 0 true ⟨⟨false, 0, 1, 1, none⟩, [Effect.PMIx_Init]⟩
        = Outcome.returned ⟨⟨false, 0, 1, 1, none⟩, [Effect.PMIx_Init]⟩ ∧
    ∃ rt2, (shmemi_finalize_pmix PMIX_SUCCESS ⟨⟨true, 0, 1, 1, none⟩, []⟩).andThen
          (shmemi_finalize_atexit_pmix 0) = Outcome.returned rt2 ∧
        rt2.p.running = false ∧ finalize_calls rt2.trace = 1 ∧ heap_releases rt2.trace = 1 :=
  ⟨finalize_idempotent.1 0 true ⟨⟨false, 0, 1, 1, none⟩, [Effect.PMIx_Init]⟩ rfl,
   finalize_idempotent.2.2.2 0 ⟨⟨true, 0, 1, 1, none⟩, []⟩ rfl⟩


/-! ## C3: initialisation accepts only a consistent world -/

/-- One `assert` of a function: if the state at the failed assertion
satisfies `Q` and the rest of the function aborts in a state satisfying `Q`,
so does the whole. -/
theorem assert_step_aborts {c : Prop} [Decidable c] {x : Runtime} {rest : Outcome Runtime}
    {Q : Runtime → Prop} (hx : Q x)
    (hrest : ¬ c → ∃ rt2, rest = Outcome.aborted rt2 ∧ Q rt2) :
    ∃ rt2, (if c then Outcome.aborted x else rest) = Outcome.aborted rt2 ∧ Q rt2 := by
  by_cases h : c
  · exact ⟨x, if_pos h, hx⟩
  · rw [if_neg h]
    exact hrest h

/-- One `assert` of a function that returned: the assertion held and the
rest of the function returned. -/
theorem assert_step_returned {c : Prop} [Decidable c] {x rt2 : Runtime} {rest : Outcome Runtime}
    (h : (if c then Outcome.aborted x else rest) = Outcome.returned rt2) :
    ¬ c ∧ rest = Outcome.returned rt2 := by
  by_cases hc : c
  · rw [if_pos hc] at h
    exact absurd h (by simp)
  · rw [if_neg hc] at h
    exact ⟨hc, h⟩

/-- One `assert` that holds: the function returns if its rest does. -/
theorem assert_step_passes {c : Prop} [Decidable c] {x : Runtime} {rest : Outcome Runtime}
    (hc : ¬ c) (hrest : ∃ rt2, rest = Outcome.returned rt2) :
    ∃ rt2, (if c then Outcome.aborted x else rest) = Outcome.returned rt2 := by
  rw [if_neg hc]
  exact hrest

/-- C3: `shmemi_init_pmix` aborts, leaving `running` as it was, for every
reply of the rendezvous service in which (after the conversion of the
unsigned 32-bit fields to `int`) the job size is `≤ 0`, the rank is `≥` the
job size, or the local peer count is negative.  Conversely, whenever it
returns, the stored identity is the converted reply, it satisfies
`0 ≤ me < npes` and `npeers ≥ 0`, the last call made is the bootstrap
barrier `PMIx_Fence`, and `running == true`.  And it does return for every
reply whose statuses are all `PMIX_SUCCESS`, whose values are consistent
and whose peer string is not `NULL`. -/
theorem init_rejects_inconsistent_world :
    (∀ (r : pmix_reply) (rt : Runtime),
      (uint32_to_int r.job_size ≤ 0 ∨ uint32_to_int r.rank ≥ uint32_to_int r.job_size ∨
        uint32_to_int r.local_size < 0) →
      ∃ rt2, shmemi_init_pmix r rt = Outcome.aborted rt2 ∧ rt2.p.running = rt.p.running) ∧
    (∀ (r : pmix_reply) (rt rt2 : Runtime), shmemi_init_pmix r rt = Outcome.returned rt2 →
      rt2.p.me = uint32_to_int r.rank ∧ rt2.p.npes = uint32_to_int r.job_size ∧
      rt2.p.npeers = uint32_to_int r.local_size ∧
      0 ≤ rt2.p.me ∧ rt2.p.me < rt2.p.npes ∧ 0 ≤ rt2.p.npeers ∧
      rt2.trace.getLast? = some Effect.PMIx_Fence ∧
      rt2.p.running = true) ∧
    (∀ (r : pmix_reply) (rt : Runtime),
      r.init_status = PMIX_SUCCESS → r.rank_status = PMIX_SUCCESS →
      r.job_size_status = PMIX_SUCCESS → r.local_size_status = PMIX_SUCCESS →
      r.local_peers_status = PMIX_SUCCESS → r.local_peers ≠ none →
      0 ≤ uint32_to_int r.rank → uint32_to_int r.rank < uint32_to_int r.job_size →
      0 ≤ uint32_to_int r.local_size →
      ∃ rt2, shmemi_init_pmix r rt = Outcome.returned rt2) := by
  refine ⟨?_, ?_, ?_⟩
  · intro r rt h
    unfold shmemi_init_pmix
    simp only []
    refine assert_step_aborts rfl (fun h1 => ?_)
    refine assert_step_aborts rfl (fun h2 => ?_)
    refine assert_step_aborts rfl (fun h3 => ?_)
    refine assert_step_aborts rfl (fun h4 => ?_)
    refine assert_step_aborts rfl (fun h5 => ?_)
    refine assert_step_aborts rfl (fun h6 => ?_)
    refine assert_step_aborts rfl (fun h7 => ?_)
    refine assert_step_aborts rfl (fun h8 => ?_)
    exfalso
    simp only [Runtime.set_me, Runtime.set_npes, Runtime.set_npeers, Runtime.emit,
      not_not, gt_iff_lt, ge_iff_le] at h3 h5 h6 h8
    omega
  · intro r rt rt2 h
    unfold shmemi_init_pmix at h
    simp only [] at h
    obtain ⟨h1, h⟩ := assert_step_returned h
    obtain ⟨h2, h⟩ := assert_step_returned h
    obtain ⟨h3, h⟩ := assert_step_returned h
    obtain ⟨h4, h⟩ := assert_step_returned h
    obtain ⟨h5, h⟩ := assert_step_returned h
    obtain ⟨h6, h⟩ := assert_step_returned h
    obtain ⟨h7, h⟩ := assert_step_returned h
    obtain ⟨h8, h⟩ := assert_step_returned h
    obtain ⟨h9, h⟩ := assert_step_returned h
    obtain ⟨h10, h⟩ := assert_step_returned h
    simp only [Outcome.returned.injEq] at h
    subst h
    simp only [Runtime.set_me, Runtime.set_npes, Runtime.set_npeers, Runtime.emit,
      not_not, gt_iff_lt, ge_iff_le] at h3 h5 h6 h8
    refine ⟨rfl, rfl, rfl, h3, h6, h8, ?_, rfl⟩
    simp [barrier_all_pmix, Runtime.emit, Runtime.set_running, Runtime.set_peers]
  · intro r rt h1 h2 h3 h4 h5 h6 h7 h8 h9
    unfold shmemi_init_pmix
    simp only []
    have h10 : uint32_to_int r.job_size > 0 := by omega
    refine assert_step_passes (not_not.mpr h1) ?_
    refine assert_step_passes (not_not.mpr h2) ?_
    refine assert_step_passes (not_not.mpr h7) ?_
    refine assert_step_passes (not_not.mpr h3) ?_
    refine assert_step_passes (not_not.mpr h10) ?_
    refine assert_step_passes (not_not.mpr h8) ?_
    refine assert_step_passes (not_not.mpr h4) ?_
    refine assert_step_passes (not_not.mpr h9) ?_
    refine assert_step_passes (not_not.mpr h5) ?_
    refine assert_step_passes h6 ?_
    exact ⟨_, rfl⟩

/-- Witness for C3: a job size that converts to `-1` aborts. -/
theorem init_rejects_inconsistent_world_witness :
    ∃ rt2, shmemi_init_pmix ⟨0, 0, 1, 0, 4294967295, 0, 2, 0, some ['0', ',', '1']⟩
        ⟨⟨false, 0, 0, 0, none⟩, []⟩ = Outcome.aborted rt2 ∧ rt2.p.running = false :=
  init_rejects_inconsistent_world.1 ⟨0, 0, 1, 0, 4294967295, 0, 2, 0, some ['0', ',', '1']⟩
    ⟨⟨false, 0, 0, 0, none⟩, []⟩ (Or.inl (by decide))


/-! ## C4 to C6: the randomisation check -/

/-- C4: `test_asr_mismatch` emits no warning, for every rank and every
local peer configuration, whenever the setting cannot be opened (`fd < 0`),
cannot be read (fewer than one byte read) or its first byte is `'0'`. -/
theorem asr_silent_when_unreadable_or_off (fd n : Int) (inp : Char) (host : List Char)
    (proc : proc_t) (h : fd < 0 ∨ n < 1 ∨ inp = '0') :
    test_asr_mismatch fd n inp host proc = some [] := by
  unfold test_asr_mismatch
  rcases h with h | h | h
  · simp [h]
  · by_cases h1 : fd < 0
    · simp [h1]
    · simp [h1, h]
  · by_cases h1 : fd < 0
    · simp [h1]
    · by_cases h2 : n < 1
      · simp [h1, h2]
      · simp [h1, h2, h]

/-- Witness for C4: the setting reads `'0'` on a node with two peers. -/
theorem asr_silent_when_unreadable_or_off_witness :
    test_asr_mismatch 3 1 '0' ['n', '0'] ⟨0, 2, [0, 1], ⟨none⟩, 0⟩ = some [] :=
  asr_silent_when_unreadable_or_off 3 1 '0' ['n', '0'] ⟨0, 2, [0, 1], ⟨none⟩, 0⟩
    (Or.inr (Or.inr rfl))

/-- C5, the code at the failing input: the setting reads as enabled (first
byte `'1'`) on a node whose two local peers are listed as `[2, 1]`.  This
process is rank 1, which differs from `local_peer_ranks[0] = 2`, and it
emits a warning all the same, because the guard compares with `>`: `1 > 2`
is false.  Rank 2, the first listed peer, warns as well, so that two
processes of one node report where the source says that only the first PE
of a node does. -/
theorem asr_warns_below_first_peer :
    (⟨1, 2, [2, 1], ⟨none⟩, 0⟩ : proc_t).npeers > 0 ∧
    (⟨1, 2, [2, 1], ⟨none⟩, 0⟩ : proc_t).peers.head? = some 2 ∧
    (⟨1, 2, [2, 1], ⟨none⟩, 0⟩ : proc_t).rank ≠ 2 ∧
    test_asr_mismatch 3 1 '1' ['n', '0'] ⟨1, 2, [2, 1], ⟨none⟩, 0⟩
      = some [⟨['n', '0'], RAND_VARIABLE, '1'⟩] ∧
    test_asr_mismatch 3 1 '1' ['n', '0'] ⟨1, 2, [2, 1], ⟨none⟩, 0⟩ ≠ some [] ∧
    test_asr_mismatch 3 1 '1' ['n', '0'] ⟨2, 2, [2, 1], ⟨none⟩, 0⟩
      = some [⟨['n', '0'], RAND_VARIABLE, '1'⟩] := by
  refine ⟨by decide, rfl, by decide, ?_, ?_, ?_⟩ <;> decide

/-- C6: when the setting reads as enabled (first byte `'1'`) and the rank
of this process equals `local_peer_ranks[0]`, `test_asr_mismatch` emits
exactly one warning. -/
theorem asr_first_peer_warns_once (fd n : Int) (host : List Char) (proc : proc_t)
    (hfd : 0 ≤ fd) (hn : 1 ≤ n) (hfirst : proc.peers.head? = some proc.rank) :
    ∃ w, test_asr_mismatch fd n '1' host proc = some [w] ∧
      w = ⟨host, RAND_VARIABLE, '1'⟩ := by
  unfold test_asr_mismatch
  have h1 : ¬ fd < 0 := by omega
  have h2 : ¬ n < 1 := by omega
  by_cases hnp : proc.npeers > 0
  · simp [h1, h2, hnp, hfirst]
  · simp [h1, h2, hnp]

/-- Witness for C6: rank 0 on a node whose peers are ranks 0 and 1. -/
theorem asr_first_peer_warns_once_witness :
    ∃ w, test_asr_mismatch 3 1 '1' ['n', '0'] ⟨0, 2, [0, 1], ⟨none⟩, 0⟩ = some [w] ∧
      w = ⟨['n', '0'], RAND_VARIABLE, '1'⟩ :=
  asr_first_peer_warns_once 3 1 ['n', '0'] ⟨0, 2, [0, 1], ⟨none⟩, 0⟩ (by decide) (by decide) rfl


/-! ## C7 and C8: the progress thread -/

theorem check_if_progress_required_loop_eq (rank : Int) (res : List Int) :
    check_if_progress_required_loop rank res = if rank ∈ res then 1 else 0 := by
  induction res with
  | nil => simp [check_if_progress_required_loop]
  | cons x rest ih =>
    unfold check_if_progress_required_loop
    by_cases h : x = rank
    · simp [h]
    · have h2 : ¬ rank = x := fun e => h e.symm
      simp [h, h2, ih]

/-- A list of ranks is never taken for the word "all". -/
theorem strncasecmp_rank_list (s : List Char) (h : is_rank_list s) :
    strncasecmp s ['a', 'l', 'l'] 3 ≠ 0 := by
  cases s with
  | nil => simp [strncasecmp]
  | cons c rest =>
    have hc : c.isDigit = true ∨ c = ',' := h c (by simp)
    have hl : c.toLower ≠ 'a' := by
      rcases hc with hd | hd
      · intro hcontra
        have h1 : c.toLower = c := by
          unfold Char.isDigit at hd
          simp only [Bool.and_eq_true, decide_eq_true_eq] at hd
          have h57 : c.toNat ≤ 57 := hd.2
          unfold Char.toLower
          have : ¬ (c.toNat ≥ 65 ∧ c.toNat ≤ 90) := by omega
          simp only [this, if_false]
        rw [h1] at hcontra
        rw [hcontra] at hd
        exact absurd hd (by decide)
      · rw [hd]
        decide
    have hl2 : c.toLower.toNat ≠ 97 := by
      intro h97
      apply hl
      apply Char.ext
      apply UInt32.ext
      exact h97
    unfold strncasecmp
    have ha : ('a' : Char).toLower = 'a' := by decide
    rw [ha, if_neg hl]
    have : ('a' : Char).toNat = 97 := rfl
    omega

/-- C7: `check_if_progress_required` decides the poller per rank: with the
configuration `"all"` it returns 1 for every rank; with the configuration
unset it returns 0 for every rank; with a comma-separated rank list that is
copied and that the CSV parser turns (status 0) into the list `L`, it
returns 1 if the rank is an element of `L` and 0 otherwise; and when the
parser reports an error on a configuration other than `"all"` it returns 0. -/
theorem progress_required_per_rank :
    (∀ (strdup_ok : Bool) (parse : List Char → Int × List Int) (proc : proc_t),
      proc.env.progress_threads = some ['a', 'l', 'l'] →
      check_if_progress_required strdup_ok parse proc = 1) ∧
    (∀ (strdup_ok : Bool) (parse : List Char → Int × List Int) (proc : proc_t),
      proc.env.progress_threads = none →
      check_if_progress_required strdup_ok parse proc = 0) ∧
    (∀ (parse : List Char → Int × List Int) (proc : proc_t) (cfg : List Char) (L : List Int),
      proc.env.progress_threads = some cfg → is_rank_list cfg → parse cfg = (0, L) →
      check_if_progress_required true parse proc = (if proc.rank ∈ L then 1 else 0)) ∧
    (∀ (strdup_ok : Bool) (parse : List Char → Int × List Int) (proc : proc_t)
      (cfg : List Char),
      proc.env.progress_threads = some cfg → strncasecmp cfg ['a', 'l', 'l'] 3 ≠ 0 →
      (parse cfg).1 ≠ 0 →
      check_if_progress_required strdup_ok parse proc = 0) := by
  refine ⟨?_, ?_, ?_, ?_⟩
  · intro strdup_ok parse proc h
    unfold check_if_progress_required
    rw [h]
    have : strncasecmp ['a', 'l', 'l'] ['a', 'l', 'l'] 3 = 0 := by decide
    simp [this]
  · intro strdup_ok parse proc h
    unfold check_if_progress_required
    rw [h]
  · intro parse proc cfg L h hl hp
    unfold check_if_progress_required
    rw [h]
    simp only [if_neg (strncasecmp_rank_list cfg hl), hp, if_true]
    exact check_if_progress_required_loop_eq proc.rank L
  · intro strdup_ok parse proc cfg h hn hp
    unfold check_if_progress_required
    rw [h]
    cases strdup_ok <;> simp [hn, hp]

/-- Witness for C7: the list `"2,5,9"`, parsed into `[2, 5, 9]`, selects
rank 5. -/
theorem progress_required_per_rank_witness :
    check_if_progress_required true (fun _ => (0, [2, 5, 9]))
      ⟨5, 1, [5], ⟨some ['2', ',', '5', ',', '9']⟩, 0⟩
      = (if (5 : Int) ∈ [(2 : Int), 5, 9] then 1 else 0) :=
  progress_required_per_rank.2.2.1 (fun _ => (0, [2, 5, 9]))
    ⟨5, 1, [5], ⟨some ['2', ',', '5', ',', '9']⟩, 0⟩ ['2', ',', '5', ',', '9'] [2, 5, 9] rfl
    (by unfold is_rank_list; decide) rfl

/-- C8: when the poller is not required on this rank
(`check_if_progress_required` returns 0), `progress_init` returns without
calling `threadwrap_thread_create`, and a following `progress_finalize` is
a no-op whatever a join would have returned: it returns the state
unchanged, so the sentinel `done` is not set and no thread is joined. -/
theorem progress_not_required_is_noop (strdup_ok : Bool)
    (parse : List Char → Int × List Int) (create_status : Int) (st : progress_t)
    (h : check_if_progress_required strdup_ok parse st.proc = 0) :
    ∃ st2, progress_init strdup_ok parse create_status st = Outcome.returned st2 ∧
      st2.calls = st.calls ∧ st2.done = st.done ∧ st2.proc.progress_thread = 0 ∧
      ∀ join_status : Int, progress_finalize join_status st2 = Outcome.returned st2 := by
  unfold progress_init
  simp only [h, ne_eq, not_true_eq_false, if_false]
  refine ⟨_, rfl, rfl, rfl, rfl, ?_⟩
  intro join_status
  simp [progress_finalize]

/-- Witness for C8: rank 4 with the rank list `"2,5,9"`. -/
theorem progress_not_required_is_noop_witness :
    ∃ st2, progress_init true (fun _ => (0, [2, 5, 9])) 0
        ⟨⟨4, 1, [4], ⟨some ['2', ',', '5', ',', '9']⟩, 0⟩, false, 1000, []⟩
        = Outcome.returned st2 ∧
      st2.calls = [] ∧ st2.done = false ∧ st2.proc.progress_thread = 0 ∧
      ∀ join_status : Int, progress_finalize join_status st2 = Outcome.returned st2 :=
  progress_not_required_is_noop true (fun _ => (0, [2, 5, 9])) 0
    ⟨⟨4, 1, [4], ⟨some ['2', ',', '5', ',', '9']⟩, 0⟩, false, 1000, []⟩ (by decide)


/-! ## C9: byte counts of the get routines -/

/-- C9, the code at the failing input: for one element, `shmem_ctx_get8`,
`16`, `32`, `64` and `128` hand the transport 8, 16, 32, 64 and 128 bytes,
the number of bits of the element, where an element of that many bits has
1, 2, 4, 8 and 16 bytes; in general the sized gets pass `nelems * size`
(modulo `2^64`) with the size in bits.  The typed get for the 8-bit type
`int8_t` passes 1 byte for the same request, and the typed gets,
`shmem_ctx_getmem` and the `_g` forms pass `nelems * sizeof(type)`,
`nelems` and `sizeof(type)`, with `ctx`, `dest`, `src` and `pe` forwarded
unchanged. -/
theorem sized_get_passes_bit_count :
    shmem_ctx_get8 7 4096 8192 1 3 = ⟨7, 4096, 8192, 8, 3⟩ ∧
    shmem_ctx_get16 7 4096 8192 1 3 = ⟨7, 4096, 8192, 16, 3⟩ ∧
    shmem_ctx_get32 7 4096 8192 1 3 = ⟨7, 4096, 8192, 32, 3⟩ ∧
    shmem_ctx_get64 7 4096 8192 1 3 = ⟨7, 4096, 8192, 64, 3⟩ ∧
    shmem_ctx_get128 7 4096 8192 1 3 = ⟨7, 4096, 8192, 128, 3⟩ ∧
    (spec_sized_get_nbytes 8 1 = 1 ∧ spec_sized_get_nbytes 16 1 = 2 ∧
      spec_sized_get_nbytes 32 1 = 4 ∧ spec_sized_get_nbytes 64 1 = 8 ∧
      spec_sized_get_nbytes 128 1 = 16) ∧
    (shmem_ctx_get8 7 4096 8192 1 3).nbytes ≠ spec_sized_get_nbytes 8 1 ∧
    SHMEM_CTX_TYPED_GET c_type.int8_t 7 4096 8192 1 3 = ⟨7, 4096, 8192, 1, 3⟩ ∧
    (∀ (size : Nat) (ctx : shmem_ctx_t) (dest src nelems : Nat) (pe : Int),
      SHMEM_CTX_SIZED_GET size ctx dest src nelems pe
        = ⟨ctx, dest, src, (nelems * size) % SIZE_MODULUS, pe⟩) ∧
    (∀ (t : c_type) (ctx : shmem_ctx_t) (dest src nelems : Nat) (pe : Int),
      SHMEM_CTX_TYPED_GET t ctx dest src nelems pe
        = ⟨ctx, dest, src, (nelems * sizeof t) % SIZE_MODULUS, pe⟩) ∧
    (∀ (ctx : shmem_ctx_t) (dest src nelems : Nat) (pe : Int),
      shmem_ctx_getmem ctx dest src nelems pe = ⟨ctx, dest, src, nelems, pe⟩) ∧
    (∀ (t : c_type) (val : Nat) (ctx : shmem_ctx_t) (addr : Nat) (pe : Int),
      SHMEM_CTX_TYPED_G t val ctx addr pe = ⟨ctx, val, addr, sizeof t, pe⟩) := by
  refine ⟨by decide, by decide, by decide, by decide, by decide, by decide, by decide,
    by decide, ?_, ?_, ?_, ?_⟩
  · intros; rfl
  · intros; rfl
  · intros; rfl
  · intros; rfl

/-! ## C10: fence and fence test -/

/-- C10: over a transport whose fence on a context completes every
operation outstanding on that context and whose fence test only inspects
the state: `shmem_ctx_fence(ctx)` does exactly the transport's fence on
`ctx`, so that afterwards no operation on `ctx` is outstanding, whatever was
issued before; `shmem_fence()` leaves the transport as
`shmem_ctx_fence(SHMEM_CTX_DEFAULT)` does, with the same guarantee for the
default context; and `shmemx_ctx_fence_test(ctx)` returns exactly the
transport's fence-test result for `ctx` and leaves the transport state
unchanged, its only trace being one log line. -/
theorem fence_completes_context {T : Type} (c : shmemc_t T)
    (hfence : ∀ (ctx : shmem_ctx_t) (t : T),
      ∀ op ∈ c.outstanding (c.shmemc_ctx_fence ctx t), op.ctx ≠ ctx)
    (htest : ∀ (ctx : shmem_ctx_t) (t : T), (c.shmemc_ctx_fence_test ctx t).2 = t) :
    (∀ (ctx : shmem_ctx_t) (w : fence_world T),
      (shmem_ctx_fence c ctx w).transport = c.shmemc_ctx_fence ctx w.transport ∧
      ∀ op ∈ c.outstanding (shmem_ctx_fence c ctx w).transport, op.ctx ≠ ctx) ∧
    (∀ (w : fence_world T),
      (shmem_fence c w).transport = (shmem_ctx_fence c c.SHMEM_CTX_DEFAULT w).transport ∧
      ∀ op ∈ c.outstanding (shmem_fence c w).transport, op.ctx ≠ c.SHMEM_CTX_DEFAULT) ∧
    (∀ (ctx : shmem_ctx_t) (w : fence_world T),
      (shmemx_ctx_fence_test c ctx w).1 = (c.shmemc_ctx_fence_test ctx w.transport).1 ∧
      (shmemx_ctx_fence_test c ctx w).2.transport = w.transport ∧
      (shmemx_ctx_fence_test c ctx w).2.log = w.log ++
        [⟨log_category.LOG_FENCE, "%s(ctx=%lu) -> %d", "shmemx_ctx_fence_test",
          [(c.shmemc_context_id ctx : Int), (c.shmemc_ctx_fence_test ctx w.transport).1]⟩]) := by
  refine ⟨?_, ?_, ?_⟩
  · intro ctx w
    exact ⟨rfl, hfence ctx w.transport⟩
  · intro w
    exact ⟨rfl, hfence c.SHMEM_CTX_DEFAULT w.transport⟩
  · intro ctx w
    exact ⟨rfl, htest ctx w.transport, rfl⟩

/-- Witness for C10: the mock transport with operations outstanding on
contexts 1 and 2; after the fence on context 1 only the operation on
context 2 is outstanding. -/
theorem fence_completes_context_witness :
    (shmem_ctx_fence mock_transport 1 ⟨[⟨1, 10⟩, ⟨2, 11⟩, ⟨1, 12⟩], []⟩).transport = [⟨2, 11⟩] ∧
    ∀ op ∈ mock_transport.outstanding
        (shmem_ctx_fence mock_transport 1 ⟨[⟨1, 10⟩, ⟨2, 11⟩, ⟨1, 12⟩], []⟩).transport,
      op.ctx ≠ 1 :=
  ⟨by decide,
   ((fence_completes_context mock_transport
      (fun ctx t op hop => by
        have h : op ∈ t.filter (fun o => o.ctx ≠ ctx) := hop
        simpa using (List.mem_filter.mp h).2)
      (fun _ _ => rfl)).1 1 ⟨[⟨1, 10⟩, ⟨2, 11⟩, ⟨1, 12⟩], []⟩).2⟩

/-! ## C11: the barrier flag of the finalisation -/

theorem finalize_flags_append (a b : List Effect) :
    finalize_flags (a ++ b) = finalize_flags a ++ finalize_flags b := by
  induction a with
  | nil => rfl
  | cons e rest ih =>
    cases e <;> simp [finalize_flags, ih]

/-- C11: the barrier flag handed to `PMIx_Finalize` is the `need_barrier`
argument of the handler: from `running == true` the handler makes exactly
one call of `PMIx_Finalize`, with that flag, whether the call succeeds or
not.  Hence the at-exit path on a running runtime requests the embedded
barrier (flag `true`) and the explicit `shmemi_finalize_pmix` never does
(flag `false` when running, no call otherwise); in both cases, when
`running` was true and `PMIx_Finalize` succeeds, the heap registry is
released once and `running` becomes false. -/
theorem finalize_barrier_flag :
    (∀ (ps : Int) (need_barrier : Bool) (rt : Runtime), rt.p.running = true →
      ∃ rt2, (shmemi_finalize_handler_pmix ps need_barrier rt = Outcome.returned rt2 ∨
          shmemi_finalize_handler_pmix ps need_barrier rt = Outcome.aborted rt2) ∧
        finalize_flags rt2.trace = finalize_flags rt.trace ++ [need_barrier]) ∧
    (∀ (rt : Runtime), rt.p.running = true →
      ∃ rt2, shmemi_finalize_atexit_pmix PMIX_SUCCESS rt = Outcome.returned rt2 ∧
        finalize_flags rt2.trace = finalize_flags rt.trace ++ [true] ∧
        heap_releases rt2.trace = heap_releases rt.trace + 1 ∧
        rt2.p.running = false) ∧
    (∀ (rt : Runtime), rt.p.running = true →
      ∃ rt2, shmemi_finalize_pmix PMIX_SUCCESS rt = Outcome.returned rt2 ∧
        finalize_flags rt2.trace = finalize_flags rt.trace ++ [false] ∧
        heap_releases rt2.trace = heap_releases rt.trace + 1 ∧
        rt2.p.running = false) ∧
    (∀ (ps : Int) (rt rt2 : Runtime),
      (shmemi_finalize_pmix ps rt = Outcome.returned rt2 ∨
        shmemi_finalize_pmix ps rt = Outcome.aborted rt2) →
      finalize_flags rt2.trace
        = finalize_flags rt.trace ++ (if rt.p.running then [false] else [])) := by
  have flags : ∀ (ps : Int) (nb : Bool) (rt : Runtime), rt.p.running = true →
      ∃ rt2, (shmemi_finalize_handler_pmix ps nb rt = Outcome.returned rt2 ∨
          shmemi_finalize_handler_pmix ps nb rt = Outcome.aborted rt2) ∧
        finalize_flags rt2.trace = finalize_flags rt.trace ++ [nb] := by
    intro ps nb rt hr
    by_cases hs : ps = PMIX_SUCCESS
    · simp only [shmemi_finalize_handler_pmix, hr, hs, if_true]
      refine ⟨_, Or.inl rfl, ?_⟩
      cases nb <;>
        simp [Runtime.emit, Runtime.set_running, finalize_flags_append, finalize_flags]
    · simp only [shmemi_finalize_handler_pmix, hr, hs, if_true, if_false]
      refine ⟨_, Or.inr rfl, ?_⟩
      cases nb <;> simp [Runtime.emit, finalize_flags_append, finalize_flags]
  have done : ∀ (nb : Bool) (rt : Runtime), rt.p.running = true →
      ∃ rt2, shmemi_finalize_handler_pmix PMIX_SUCCESS nb rt = Outcome.returned rt2 ∧
        finalize_flags rt2.trace = finalize_flags rt.trace ++ [nb] ∧
        heap_releases rt2.trace = heap_releases rt.trace + 1 ∧
        rt2.p.running = false := by
    intro nb rt hr
    simp only [shmemi_finalize_handler_pmix, hr, if_true]
    refine ⟨_, rfl, ?_, ?_, ?_⟩
    · cases nb <;>
        simp [Runtime.emit, Runtime.set_running, finalize_flags_append, finalize_flags]
    · cases nb <;>
        simp [Runtime.emit, Runtime.set_running, heap_releases, List.count_append]
    · rfl
  refine ⟨flags, ?_, ?_, ?_⟩
  · intro rt hr
    have h := done true rt hr
    unfold shmemi_finalize_atexit_pmix
    rw [hr]
    exact h
  · intro rt hr
    exact done false rt hr
  · intro ps rt rt2 h
    unfold shmemi_finalize_pmix at h
    by_cases hr : rt.p.running = true
    · obtain ⟨rt3, h3, hf⟩ := flags ps false rt hr
      have e : rt2 = rt3 := by
        rcases h with h | h <;> rcases h3 with h3 | h3 <;> rw [h] at h3 <;>
          simp only [Outcome.returned.injEq, Outcome.aborted.injEq, reduceCtorEq] at h3 <;>
          exact h3
      rw [e, hf, hr]
      rfl
    · have hr2 : rt.p.running = false := by simpa using hr
      have hn : shmemi_finalize_handler_pmix ps false rt = Outcome.returned rt := by
        simp [shmemi_finalize_handler_pmix, hr2]
      rw [hn] at h
      rcases h with h | h
      · simp only [Outcome.returned.injEq] at h
        rw [← h, hr2]
        simp
      · simp at h

/-- Witness for C11: a running runtime finalised through the at-exit
path. -/
theorem finalize_barrier_flag_witness :
    ∃ rt2, shmemi_finalize_atexit_pmix PMIX_SUCCESS ⟨⟨true, 0, 2, 1, none⟩, [Effect.PMIx_Init]⟩
        = Outcome.returned rt2 ∧
      finalize_flags rt2.trace = [true] ∧ heap_releases rt2.trace = 1 ∧
      rt2.p.running = false :=
  finalize_barrier_flag.2.1 ⟨⟨true, 0, 2, 1, none⟩, [Effect.PMIx_Init]⟩ rfl

/-! ## C12: the heap keys are injective and shared -/

/-- C12: for all `int` values the keys `"<pe>:heapx:<heap-index>:base"` and
`"<pe>:heapx:<heap-index>:size"` fit the `PMIX_MAX_KEYLEN` bound (at most 34
characters, so `snprintf` leaves them whole); two keys are equal only if
rank, heap index and field are equal; the key a rank uses to fetch the
descriptor of (owner `pn`, heap `k`) is the key owner `pn` published it
under, so that over a store holding nothing but that one publication the
fetch finds exactly the published base and size; and after any sequence of
publications every published value is still found under its own key. -/
theorem heap_keys_injective_and_shared :
    (∀ pe i : Int, int_range pe → int_range i →
      (base_fmt pe i).length ≤ 34 ∧ (size_fmt pe i).length ≤ 34 ∧
      (base_fmt pe i).length < PMIX_MAX_KEYLEN ∧ (size_fmt pe i).length < PMIX_MAX_KEYLEN ∧
      snprintf PMIX_MAX_KEYLEN (base_fmt pe i) = base_fmt pe i ∧
      snprintf PMIX_MAX_KEYLEN (size_fmt pe i) = size_fmt pe i) ∧
    (∀ pe i pe2 i2 : Int, int_range pe → int_range i → int_range pe2 → int_range i2 →
      (snprintf PMIX_MAX_KEYLEN (base_fmt pe i) = snprintf PMIX_MAX_KEYLEN (base_fmt pe2 i2) →
        pe = pe2 ∧ i = i2) ∧
      (snprintf PMIX_MAX_KEYLEN (size_fmt pe i) = snprintf PMIX_MAX_KEYLEN (size_fmt pe2 i2) →
        pe = pe2 ∧ i = i2) ∧
      snprintf PMIX_MAX_KEYLEN (base_fmt pe i) ≠ snprintf PMIX_MAX_KEYLEN (size_fmt pe2 i2)) ∧
    (∀ (p q : shmemi_state) (heapx tbl : HeapTable) (d : HeapDescriptor) (pn k : Nat),
      p.me = (pn : Int) → pn ≤ 2147483647 → k ≤ 2147483647 →
      heapx (k : Int) p.me = some d → q.me ≠ (pn : Int) →
      ∃ s, publish_heap_info_loop p heapx [k] PmixStore.empty = some s ∧
        ∃ tbl2, exchange_heap_info_pe_loop q s (k : Int) [pn] tbl = some tbl2 ∧
          tbl2 (k : Int) (pn : Int) = some d) ∧
    (∀ (H : Nat) (P : Int → shmemi_state) (T : Int → HeapTable) (order : List Int),
      H ≤ 2147483647 → (∀ r ∈ order, (P r).me = r ∧ int_range r) →
      (∀ r ∈ order, ∀ i : Nat, i < H → (T r (i : Int) r).isSome = true) →
      ∃ s, publish_by_ranks (H : Int) P T order PmixStore.empty = some s ∧
        ∀ r ∈ order, ∀ i : Nat, i < H → ∀ d, T r (i : Int) r = some d →
          PMIx_Lookup (snprintf PMIX_MAX_KEYLEN (base_fmt r i)) s
            = some ⟨pmix_data_type.PMIX_UINT64, d.base⟩ ∧
          PMIx_Lookup (snprintf PMIX_MAX_KEYLEN (size_fmt r i)) s
            = some ⟨pmix_data_type.PMIX_SIZE, d.size⟩) := by
  refine ⟨?_, ?_, ?_, ?_⟩
  · intro pe i hpe hi
    have h1 := base_fmt_length pe i hpe hi
    have h2 := size_fmt_length pe i hpe hi
    refine ⟨h1, h2, ?_, ?_, snprintf_base_fmt pe i hpe hi, snprintf_size_fmt pe i hpe hi⟩
    · unfold PMIX_MAX_KEYLEN; omega
    · unfold PMIX_MAX_KEYLEN; omega
  · intro pe i pe2 i2 hpe hi hpe2 hi2
    rw [snprintf_base_fmt pe i hpe hi, snprintf_base_fmt pe2 i2 hpe2 hi2,
      snprintf_size_fmt pe i hpe hi, snprintf_size_fmt pe2 i2 hpe2 hi2]
    exact ⟨base_fmt_inj pe i pe2 i2, size_fmt_inj pe i pe2 i2,
      base_fmt_ne_size_fmt pe i pe2 i2⟩
  · intro p q heapx tbl d pn k hme hpn hk hd hq
    have r1 : int_range p.me := by rw [hme]; unfold int_range; omega
    have r2 : int_range (pn : Int) := by unfold int_range; omega
    have r3 : int_range (k : Int) := by unfold int_range; omega
    obtain ⟨s, hs, ha, _⟩ := publish_heap_info_loop_spec p heapx r1 [k] PmixStore.empty
      (fun i hi => by
        have : i = k := by simpa using hi
        omega)
      (fun i hi => by
        have : i = k := by simpa using hi
        rw [this, hd]; rfl)
    obtain ⟨hb, hz⟩ := ha k (by simp) d hd
    rw [hme] at hb hz
    refine ⟨s, hs, shmemi_heapx_set_pe k pn d.base d.size tbl, ?_, ?_⟩
    · have hq2 : (pn : Int) ≠ q.me := fun e => hq e.symm
      simp only [exchange_heap_info_pe_loop, hq2, ne_eq, not_false_eq_true, if_true,
        PMIx_Lookup, snprintf_base_fmt _ _ r2 r3, snprintf_size_fmt _ _ r2 r3, hb, hz]
    · simp [shmemi_heapx_set_pe]
  · intro H P T order hH hP hv
    obtain ⟨s, hs, ha, _⟩ := publish_by_ranks_spec H hH P T order PmixStore.empty hP hv
    refine ⟨s, hs, ?_⟩
    intro r hr i hi d hd
    have r1 : int_range r := (hP r hr).2
    have r2 : int_range (i : Int) := by unfold int_range; omega
    rw [snprintf_base_fmt r i r1 r2, snprintf_size_fmt r i r1 r2]
    exact ha r hr i hi d hd

/-- Witness for C12: the extreme `int` values give keys of 34 characters,
left whole by `snprintf`. -/
theorem heap_keys_injective_and_shared_witness :
    (base_fmt (-2147483648) (-2147483648)).length ≤ 34 ∧
    (size_fmt (-2147483648) (-2147483648)).length ≤ 34 ∧
    (base_fmt (-2147483648) (-2147483648)).length < PMIX_MAX_KEYLEN ∧
    (size_fmt (-2147483648) (-2147483648)).length < PMIX_MAX_KEYLEN ∧
    snprintf PMIX_MAX_KEYLEN (base_fmt (-2147483648) (-2147483648))
      = base_fmt (-2147483648) (-2147483648) ∧
    snprintf PMIX_MAX_KEYLEN (size_fmt (-2147483648) (-2147483648))
      = size_fmt (-2147483648) (-2147483648) :=
  heap_keys_injective_and_shared.1 (-2147483648) (-2147483648)
    (by unfold int_range; decide) (by unfold int_range; decide)


end OsssUcx
